import Mathlib

/-!
Verification of `script/flatpak-cargo-generator.py`.

The script is embedded shallowly: Python strings are `List Char`, Python dicts
are association lists in insertion order, fallible Python code returns
`Except PyErr`, and the filesystem/network effects of the fetch coordinator
(`get_git_repo_packages`, `get_remote_sha256`) are abstracted by oracle
parameters.  The pieces of `urllib.parse` the script relies on (`urlparse`,
`ParseResult.geturl`, `parse_qs`, `hostname`) are modelled after CPython 3.11
`Lib/urllib/parse.py`, restricted to ASCII text: the `_checknetloc` NFKC check
and `_check_bracketed_host` IPv6 validation (which only reject inputs) are
omitted, while the mismatched-bracket `ValueError` is kept.
-/

set_option autoImplicit false

namespace FlatpakCargo

/-- Python strings are modelled as lists of characters. -/
abbrev Str := List Char

deriving instance DecidableEq for Except

/-- Python exceptions that the script can raise. -/
inductive PyErr where
  | valueError
  | typeError
  | assertionError
  | attributeError
  | keyError
deriving DecidableEq, Repr

/-! ### Generic `Except` computation lemmas -/

@[simp] theorem exceptBind_ok {ε α β : Type} (a : α) (f : α → Except ε β) :
    (Except.ok a >>= f) = f a := rfl

@[simp] theorem exceptBind_error {ε α β : Type} (e : ε) (f : α → Except ε β) :
    ((Except.error e : Except ε α) >>= f) = .error e := rfl

@[simp] theorem exceptPure_bind {ε α β : Type} (a : α) (f : α → Except ε β) :
    ((pure a : Except ε α) >>= f) = f a := rfl

@[simp] theorem exceptMap_ok {ε α β : Type} (a : α) (f : α → β) :
    (Except.ok a : Except ε α).map f = .ok (f a) := rfl

@[simp] theorem exceptMap_error {ε α β : Type} (e : ε) (f : α → β) :
    (Except.error e : Except ε α).map f = .error e := rfl

@[simp] theorem exceptPure_eq_ok {ε α : Type} (a : α) :
    (pure a : Except ε α) = .ok a := rfl

/-! ### Python string primitives -/

/-- The bytes `urlsplit` removes everywhere (`_UNSAFE_URL_BYTES_TO_REMOVE`). -/
def isUnsafeByte (c : Char) : Bool :=
  c == '\t' || c == '\r' || c == '\n'

/-- Membership in `_WHATWG_C0_CONTROL_OR_SPACE` (code points `0x00`–`0x20`). -/
def isC0OrSpace (c : Char) : Bool :=
  c.toNat ≤ 0x20

/-- Membership in `scheme_chars` (ASCII letters, digits, `+`, `-`, `.`). -/
def isSchemeChar (c : Char) : Bool :=
  c.isAlpha || c.isDigit || c == '+' || c == '-' || c == '.'

/-- ASCII lower-casing of one character, as `str.lower` acts on ASCII text. -/
def asciiLower (c : Char) : Char :=
  if 'A' ≤ c ∧ c ≤ 'Z' then Char.ofNat (c.toNat + 32) else c

/-- `str.lower` on ASCII text. -/
def lowerStr (s : Str) : Str := s.map asciiLower

/-- Fuel-indexed worker for `pyReplace`; the fuel only serves to make the
recursion structural (it never runs out when it starts at the string's
length). -/
def replaceF (pat rep : Str) : Nat → Str → Str
  | _, [] => []
  | 0, l => l
  | fuel + 1, c :: cs =>
    if pat ≠ [] ∧ pat.isPrefixOf (c :: cs) then
      rep ++ replaceF pat rep fuel ((c :: cs).drop pat.length)
    else
      c :: replaceF pat rep fuel cs

/-- `str.replace(pat, rep)`: replace every non-overlapping occurrence of `pat`,
scanning left to right.  (Python's behaviour on an empty pattern is irrelevant
here; the model leaves the string unchanged then.) -/
def pyReplace (pat rep : Str) (l : Str) : Str :=
  replaceF pat rep l.length l

/-- `s.rstrip('/')`. -/
def rstripSlash (l : Str) : Str :=
  (l.reverse.dropWhile (· == '/')).reverse

/-- The part of `l` strictly after its last occurrence of `c`
(all of `l` when `c` does not occur). -/
def afterLastChar (c : Char) (l : Str) : Str :=
  (l.reverse.takeWhile (· != c)).reverse

/-- `str.split(sep)` for a one-character separator: splits at every
occurrence, keeping empty pieces (`''.split('/') == ['']`). -/
def pySplitChar (sep : Char) (l : Str) : List Str :=
  match l with
  | [] => [[]]
  | c :: cs =>
    if c = sep then
      [] :: pySplitChar sep cs
    else
      match pySplitChar sep cs with
      | [] => [[c]]
      | p :: ps => (c :: p) :: ps

/-- First-occurrence substring test, as Python's `in` on strings. -/
def containsSubstr (pat l : Str) : Bool :=
  match l with
  | [] => pat.isEmpty
  | _ :: cs => pat.isPrefixOf l || containsSubstr pat cs

/-! ### Association lists with Python `dict` semantics

Keys are kept in insertion order; assigning to an existing key keeps its
position, assigning to a new key appends it. -/

/-- `d.get(k)` / `k in d`. -/
def pyGet {α : Type} (k : Str) (d : List (Str × α)) : Option α :=
  match d with
  | [] => none
  | (k', v) :: rest => if k' = k then some v else pyGet k rest

/-- `d[k] = v`. -/
def pySet {α : Type} (k : Str) (v : α) (d : List (Str × α)) : List (Str × α) :=
  match d with
  | [] => [(k, v)]
  | (k', v') :: rest => if k' = k then (k', v) :: rest else (k', v') :: pySet k v rest

/-- `del d[k]`. -/
def pyDel {α : Type} (k : Str) (d : List (Str × α)) : List (Str × α) :=
  match d with
  | [] => []
  | (k', v') :: rest => if k' = k then rest else (k', v') :: pyDel k rest

/-- `d.update(e)`: assign every entry of `e` into `d` in order. -/
def pyUpdate {α : Type} (d e : List (Str × α)) : List (Str × α) :=
  e.foldl (fun acc kv => pySet kv.1 kv.2 acc) d

/-! ### `urllib.parse` -/

/-- Result of `urlsplit`. -/
structure SplitResult where
  scheme : Str
  netloc : Str
  path : Str
  query : Str
  fragment : Str
deriving DecidableEq, Repr

/-- Result of `urlparse` (a `SplitResult` plus `params`). -/
structure ParseResult where
  scheme : Str
  netloc : Str
  path : Str
  params : Str
  query : Str
  fragment : Str
deriving DecidableEq, Repr

/-- Scheme detection in `urlsplit`: the text before the first `:` is taken as
the scheme when it is non-empty, starts with an ASCII letter and consists of
scheme characters; the scheme is lower-cased. -/
def schemeSplit (l : Str) : Option (Str × Str) :=
  let pre := l.takeWhile (fun c => c != ':')
  match l.dropWhile (fun c => c != ':') with
  | [] => none
  | _ :: after =>
    match pre with
    | [] => none
    | c :: _ =>
      if c.isAlpha && pre.all isSchemeChar then
        some (lowerStr pre, after)
      else
        none

/-- Netloc delimiters in `_splitnetloc`. -/
def isNetlocDelim (c : Char) : Bool :=
  c == '/' || c == '?' || c == '#'

/-- Split `l` at the first occurrence of `sep`, dropping the separator; when
`sep` does not occur the second component is empty (`str.split(sep, 1)`). -/
def splitOnceAt (sep : Char) (l : Str) : Str × Str :=
  (l.takeWhile (fun c => c != sep), (l.dropWhile (fun c => c != sep)).tail)

/-- `urlsplit` (CPython 3.11), for ASCII input, with `allow_fragments=True`.
Raises `ValueError` on a netloc containing `[` without `]` or vice versa. -/
def pyUrlsplit (url : Str) : Except PyErr SplitResult :=
  let url := url.dropWhile isC0OrSpace
  let url := url.filter (fun c => !isUnsafeByte c)
  let (scheme, url) := (schemeSplit url).getD ([], url)
  let (netloc, url) :=
    if url.take 2 = ['/', '/'] then
      ((url.drop 2).takeWhile (fun c => !isNetlocDelim c),
       (url.drop 2).dropWhile (fun c => !isNetlocDelim c))
    else
      ([], url)
  if (netloc.contains '[' && !netloc.contains ']') ||
     (netloc.contains ']' && !netloc.contains '[') then
    .error .valueError
  else
    let (url, fragment) := splitOnceAt '#' url
    let (url, query) := splitOnceAt '?' url
    .ok ⟨scheme, netloc, url, query, fragment⟩

/-- `uses_params` (schemes whose path may carry `;params`). -/
def usesParams (s : Str) : Bool :=
  [("" : String), "ftp", "hdl", "prospero", "http", "imap", "https", "shttp",
   "rtsp", "rtsps", "rtspu", "sip", "sips", "mms", "sftp", "tel"].any
    (fun t => t.data = s)

/-- `uses_netloc` (schemes for which `urlunsplit` re-inserts `//`). -/
def usesNetloc (s : Str) : Bool :=
  [("" : String), "ftp", "http", "gopher", "nntp", "telnet", "imap", "wais",
   "file", "mms", "https", "shttp", "snews", "prospero", "rtsp", "rtsps",
   "rtspu", "rsync", "svn", "svn+ssh", "sftp", "nfs", "git", "git+ssh",
   "ws", "wss"].any (fun t => t.data = s)

/-- `_splitparams`: split `;params` off the last path segment.  Only called
when the path contains `;`. -/
def splitParams (l : Str) : Str × Str :=
  if l.contains '/' then
    let finSeg := (l.reverse.takeWhile (· != '/')).reverse
    let pre := (l.reverse.dropWhile (· != '/')).reverse
    if finSeg.contains ';' then
      (pre ++ finSeg.takeWhile (fun c => c != ';'),
       (finSeg.dropWhile (fun c => c != ';')).tail)
    else
      (l, [])
  else
    (l.takeWhile (fun c => c != ';'), (l.dropWhile (fun c => c != ';')).tail)

/-- `urlparse` (CPython 3.11) for ASCII input. -/
def pyUrlparse (url : Str) : Except PyErr ParseResult :=
  (pyUrlsplit url).map fun r =>
    if r.path.contains ';' && usesParams r.scheme then
      let (p, params) := splitParams r.path
      ⟨r.scheme, r.netloc, p, params, r.query, r.fragment⟩
    else
      ⟨r.scheme, r.netloc, r.path, [], r.query, r.fragment⟩

/-- `urlunsplit` (CPython 3.11). -/
def pyUrlunsplit (scheme netloc url query fragment : Str) : Str :=
  let url :=
    if netloc ≠ [] || (scheme ≠ [] && usesNetloc scheme && url.take 2 ≠ ['/', '/']) then
      '/' :: '/' :: netloc ++ (if url ≠ [] ∧ url.take 1 ≠ ['/'] then '/' :: url else url)
    else
      url
  let url := if scheme ≠ [] then scheme ++ ':' :: url else url
  let url := if query ≠ [] then url ++ '?' :: query else url
  if fragment ≠ [] then url ++ '#' :: fragment else url

/-- `ParseResult.geturl` (`urlunparse`). -/
def geturl (r : ParseResult) : Str :=
  pyUrlunsplit r.scheme r.netloc
    (if r.params ≠ [] then r.path ++ ';' :: r.params else r.path)
    r.query r.fragment

/-- `ParseResult.hostname`: the netloc after the last `@`, cut at `[`…`]` or
the port `:`, lower-cased (keeping an IPv6 zone suffix as-is); `None` when
empty. -/
def hostname (r : ParseResult) : Option Str :=
  let hostinfo := (r.netloc.reverse.takeWhile (· != '@')).reverse
  let host :=
    if hostinfo.contains '[' then
      ((hostinfo.dropWhile (fun c => c != '[')).tail).takeWhile (fun c => c != ']')
    else
      hostinfo.takeWhile (fun c => c != ':')
  if host = [] then
    none
  else
    let (main, zone) := (host.takeWhile (fun c => c != '%'), host.dropWhile (fun c => c != '%'))
    some (lowerStr main ++ zone)

/-- Hex digit value of an ASCII hex character. -/
def hexVal (c : Char) : Nat :=
  if c.isDigit then c.toNat - '0'.toNat
  else if 'a' ≤ c ∧ c ≤ 'f' then c.toNat - 'a'.toNat + 10
  else if 'A' ≤ c ∧ c ≤ 'F' then c.toNat - 'A'.toNat + 10
  else 0

/-- ASCII hex digit test. -/
def isHexDigitChar (c : Char) : Bool :=
  c.isDigit || ('a' ≤ c && c ≤ 'f') || ('A' ≤ c && c ≤ 'F')

/-- `%XX` percent-decoding of ASCII text (`unquote`); malformed escapes are
left untouched. -/
def pyUnquote (l : Str) : Str :=
  match l with
  | '%' :: a :: b :: rest =>
    if isHexDigitChar a && isHexDigitChar b then
      Char.ofNat (16 * hexVal a + hexVal b) :: pyUnquote rest
    else
      '%' :: pyUnquote (a :: b :: rest)
  | c :: rest => c :: pyUnquote rest
  | [] => []

/-- `parse_qs` with default arguments: split the query on `&`, split each
field at its first `=` (fields without `=` or with an empty value are
dropped), replace `+` by a space, percent-decode, and group values by key in
first-appearance order. -/
def pyParseQs (qs : Str) : List (Str × List Str) :=
  let pairs := if qs = [] then [] else pySplitChar '&' qs
  pairs.foldl
    (fun acc nv =>
      if nv = [] then acc
      else if nv.contains '=' then
        let (n, v) := splitOnceAt '=' nv
        if v = [] then acc
        else
          let n := pyUnquote (n.map (fun c => if c = '+' then ' ' else c))
          let v := pyUnquote (v.map (fun c => if c = '+' then ' ' else c))
          match pyGet n acc with
          | some vs => pySet n (vs ++ [v]) acc
          | none => acc ++ [(n, [v])]
      else acc)
    []

/-! ### `canonical_url` and friends -/

/-- `canonical_url` from the script: rewrite `git+https://` to `https://`,
parse, drop params/query/fragment, strip trailing `/`, force `https` and
lower-case the path on `github.com`, and strip a trailing `.git`. -/
def canonical_url (url : Str) : Except PyErr ParseResult := do
  let url := pyReplace "git+https://".data "https://".data url
  let u ← pyUrlparse url
  let p := rstripSlash u.path
  let (s, p) :=
    if u.netloc = "github.com".data then
      ("https".data, lowerStr p)
    else
      (u.scheme, p)
  let p := if ".git".data.isSuffixOf p then p.take (p.length - 4) else p
  pure ⟨s, u.netloc, p, [], [], []⟩

/-- `COMMIT_LEN`. -/
def COMMIT_LEN : Nat := 7

/-- `CARGO_HOME`. -/
def CARGO_HOME : Str := "cargo".data

/-- `CARGO_CRATES` (`cargo/vendor`). -/
def CARGO_CRATES : Str := "cargo/vendor".data

/-- `VENDORED_SOURCES`. -/
def VENDORED_SOURCES : Str := "vendored-sources".data

/-- `GIT_CACHE` (`flatpak-cargo/git`). -/
def GIT_CACHE : Str := "flatpak-cargo/git".data

/-- `CRATES_IO`. -/
def CRATES_IO : Str := "https://static.crates.io/crates".data

/-- `git_repo_name`: last component of the canonical path, dash, the first
seven characters of the commit. -/
def git_repo_name (git_url commit : Str) : Except PyErr Str := do
  let c ← canonical_url git_url
  let name := (pySplitChar '/' c.path).getLastD []
  pure (name ++ "-".data ++ commit.take COMMIT_LEN)

/-- `get_git_tarball`: canonicalize, require an `owner/repo` path
(`AssertionError` otherwise), and build a host-specific tarball URL;
unrecognized hosts raise `ValueError` (an absent hostname makes
`url.hostname.split` raise `AttributeError`). -/
def get_git_tarball (repo_url commit : Str) : Except PyErr Str := do
  let url ← canonical_url repo_url
  let path := (pySplitChar '/' url.path).drop 1
  match path with
  | [owner, repoRaw] =>
    let repo :=
      if ".git".data.isSuffixOf repoRaw then
        pyReplace ".git".data [] repoRaw
      else
        repoRaw
    match hostname url with
    | none =>
      -- `url.hostname == 'github.com'` is `False` for `None`; the
      -- subsequent `url.hostname.split('.')` then raises `AttributeError`.
      .error .attributeError
    | some h =>
      if h = "github.com".data then
        pure ("https://codeload.".data ++ h ++ "/".data ++ owner ++ "/".data ++
          repo ++ "/tar.gz/".data ++ commit)
      else if (pySplitChar '.' h).headD [] = "gitlab".data then
        pure ("https://".data ++ h ++ "/".data ++ owner ++ "/".data ++ repo ++
          "/-/archive/".data ++ commit ++ "/".data ++ repo ++ "-".data ++
          commit ++ ".tar.gz".data)
      else if h = "bitbucket.org".data then
        pure ("https://".data ++ h ++ "/".data ++ owner ++ "/".data ++ repo ++
          "/get/".data ++ commit ++ ".tar.gz".data)
      else
        .error .valueError
  | _ => .error .assertionError

/-- The clone cache directory `fetch_git_repo` uses for a repository URL,
relative to the shared cache root: `flatpak-cargo/<url with `://` and `/`
replaced by `_`>`. -/
def cloneDirOf (git_url : Str) : Str :=
  "flatpak-cargo/".data ++ pyReplace "/".data "_".data (pyReplace "://".data "_".data git_url)

/-! ### Sanity checks of the `urllib.parse` model against CPython 3.11 -/

example : pyUrlparse "https://h/a;b".data =
    .ok ⟨"https".data, "h".data, "/a".data, "b".data, [], []⟩ := by decide

example : pyUrlparse "https://h/a;b/".data =
    .ok ⟨"https".data, "h".data, "/a;b/".data, [], [], []⟩ := by decide

example : pyUrlparse "git+https://h/a;b".data =
    .ok ⟨"git+https".data, "h".data, "/a;b".data, [], [], []⟩ := by decide

example : pyUrlparse "GIT+HTTPS://h/x".data =
    .ok ⟨"git+https".data, "h".data, "/x".data, [], [], []⟩ := by decide

example : pyUrlparse "a:b:c".data =
    .ok ⟨"a".data, [], "b:c".data, [], [], []⟩ := by decide

example : pyUrlparse ":b".data =
    .ok ⟨[], [], ":b".data, [], [], []⟩ := by decide

example : pyUrlparse "x?a:b".data =
    .ok ⟨[], [], "x".data, [], "a:b".data, []⟩ := by decide

example : pyUrlparse "////foo".data =
    .ok ⟨[], [], "//foo".data, [], [], []⟩ := by decide

example : geturl ⟨"https".data, "h".data, "/".data, [], [], []⟩ =
    "https://h/".data := by decide

example : geturl ⟨"https".data, "h".data, [], [], [], []⟩ =
    "https://h".data := by decide

example : geturl ⟨[], [], "//foo".data, [], [], []⟩ = "//foo".data := by decide

example : canonical_url "git+https://github.com/Org/Repo.git/?rev=1#abc".data =
    .ok ⟨"https".data, "github.com".data, "/org/repo".data, [], [], []⟩ := by decide

example : pyParseQs "rev=1&branch=a+b%2Fc".data =
    [("rev".data, ["1".data]), ("branch".data, ["a b/c".data])] := by decide

/-! ### TOML values and `update_workspace_keys`

TOML data decoded by the `toml` module is modelled by `Toml`; Python dicts
keep insertion order, so tables are association lists. -/

/-- A decoded TOML value. -/
inductive Toml where
  | str : Str → Toml
  | int : Int → Toml
  | boolean : Bool → Toml
  | arr : List Toml → Toml
  | table : List (Str × Toml) → Toml

mutual

/-- Structural size of a TOML value, used as recursion fuel. -/
def tomlSize : Toml → Nat
  | .str _ => 1
  | .int _ => 1
  | .boolean _ => 1
  | .arr xs => 1 + tomlListSize xs
  | .table es => 1 + tomlTableSize es

/-- Structural size of a TOML array's elements. -/
def tomlListSize : List Toml → Nat
  | [] => 1
  | x :: xs => 1 + tomlSize x + tomlListSize xs

/-- Structural size of a TOML table's entries. -/
def tomlTableSize : List (Str × Toml) → Nat
  | [] => 1
  | (_, v) :: es => 1 + tomlSize v + tomlTableSize es

end

mutual

/-- Boolean equality of TOML values. -/
def tomlBEq : Toml → Toml → Bool
  | .str a, .str b => a == b
  | .int a, .int b => a == b
  | .boolean a, .boolean b => a == b
  | .arr a, .arr b => tomlListBEq a b
  | .table a, .table b => tomlTableBEq a b
  | _, _ => false

/-- Boolean equality of TOML array elements. -/
def tomlListBEq : List Toml → List Toml → Bool
  | [], [] => true
  | a :: as, b :: bs => tomlBEq a b && tomlListBEq as bs
  | _, _ => false

/-- Boolean equality of TOML table entries. -/
def tomlTableBEq : List (Str × Toml) → List (Str × Toml) → Bool
  | [], [] => true
  | (k, v) :: as, (k', v') :: bs => k == k' && tomlBEq v v' && tomlTableBEq as bs
  | _, _ => false

end

mutual

theorem tomlBEq_refl : ∀ a : Toml, tomlBEq a a = true
  | .str _ => by simp [tomlBEq]
  | .int _ => by simp [tomlBEq]
  | .boolean _ => by simp [tomlBEq]
  | .arr xs => by simp [tomlBEq, tomlListBEq_refl xs]
  | .table es => by simp [tomlBEq, tomlTableBEq_refl es]

theorem tomlListBEq_refl : ∀ xs : List Toml, tomlListBEq xs xs = true
  | [] => by simp [tomlListBEq]
  | x :: xs => by simp [tomlListBEq, tomlBEq_refl x, tomlListBEq_refl xs]

theorem tomlTableBEq_refl : ∀ es : List (Str × Toml), tomlTableBEq es es = true
  | [] => by simp [tomlTableBEq]
  | (_, v) :: es => by simp [tomlTableBEq, tomlBEq_refl v, tomlTableBEq_refl es]

end

mutual

theorem tomlBEq_eq : ∀ a b : Toml, tomlBEq a b = true → a = b
  | .str _, .str _ => by simp [tomlBEq]
  | .int _, .int _ => by simp [tomlBEq]
  | .boolean _, .boolean _ => by simp [tomlBEq]
  | .arr xs, .arr ys => by
    intro h
    have := tomlListBEq_eq xs ys (by simpa [tomlBEq] using h)
    simp [this]
  | .table es, .table fs => by
    intro h
    have := tomlTableBEq_eq es fs (by simpa [tomlBEq] using h)
    simp [this]
  | .str _, .int _ => by simp [tomlBEq]
  | .str _, .boolean _ => by simp [tomlBEq]
  | .str _, .arr _ => by simp [tomlBEq]
  | .str _, .table _ => by simp [tomlBEq]
  | .int _, .str _ => by simp [tomlBEq]
  | .int _, .boolean _ => by simp [tomlBEq]
  | .int _, .arr _ => by simp [tomlBEq]
  | .int _, .table _ => by simp [tomlBEq]
  | .boolean _, .str _ => by simp [tomlBEq]
  | .boolean _, .int _ => by simp [tomlBEq]
  | .boolean _, .arr _ => by simp [tomlBEq]
  | .boolean _, .table _ => by simp [tomlBEq]
  | .arr _, .str _ => by simp [tomlBEq]
  | .arr _, .int _ => by simp [tomlBEq]
  | .arr _, .boolean _ => by simp [tomlBEq]
  | .arr _, .table _ => by simp [tomlBEq]
  | .table _, .str _ => by simp [tomlBEq]
  | .table _, .int _ => by simp [tomlBEq]
  | .table _, .boolean _ => by simp [tomlBEq]
  | .table _, .arr _ => by simp [tomlBEq]

theorem tomlListBEq_eq : ∀ xs ys : List Toml, tomlListBEq xs ys = true → xs = ys
  | [], [] => by simp
  | x :: xs, y :: ys => by
    intro h
    simp only [tomlListBEq, Bool.and_eq_true] at h
    have h1 := tomlBEq_eq x y h.1
    have h2 := tomlListBEq_eq xs ys h.2
    simp [h1, h2]
  | [], _ :: _ => by simp [tomlListBEq]
  | _ :: _, [] => by simp [tomlListBEq]

theorem tomlTableBEq_eq : ∀ es fs : List (Str × Toml), tomlTableBEq es fs = true → es = fs
  | [], [] => by simp
  | (k, v) :: es, (k', v') :: fs => by
    intro h
    simp only [tomlTableBEq, Bool.and_eq_true] at h
    have h1 := tomlBEq_eq v v' h.1.2
    have h2 := tomlTableBEq_eq es fs h.2
    have h3 : k = k' := by simpa using h.1.1
    simp [h1, h2, h3]
  | [], _ :: _ => by simp [tomlTableBEq]
  | _ :: _, [] => by simp [tomlTableBEq]

end

instance : DecidableEq Toml := fun a b =>
  decidable_of_iff (tomlBEq a b = true)
    ⟨tomlBEq_eq a b, fun h => h ▸ tomlBEq_refl a⟩

instance : BEq Toml := ⟨tomlBEq⟩

/-- Python truthiness of a decoded value (`not workspace`). -/
def pyTruthy : Toml → Bool
  | .str s => !s.isEmpty
  | .int n => n != 0
  | .boolean b => b
  | .arr xs => !xs.isEmpty
  | .table es => !es.isEmpty

/-- Python `key in value` for a string key: key lookup on a dict, substring
test on a string, element equality on a list, `TypeError` on a number. -/
def pyContains (w : Toml) (key : Str) : Except PyErr Bool :=
  match w with
  | .table es => .ok ((pyGet key es).isSome)
  | .str s => .ok (containsSubstr key s)
  | .arr xs => .ok (xs.any (fun t => t == .str key))
  | .int _ => .error .typeError
  | .boolean _ => .error .typeError

/-- Python `value[key]` for a string key: dict lookup (`KeyError` when
absent), `TypeError` on anything else. -/
def pyIndex (w : Toml) (key : Str) : Except PyErr Toml :=
  match w with
  | .table es =>
    match pyGet key es with
    | some v => .ok v
    | none => .error .keyError
  | _ => .error .typeError

/-- Python `a += b` on decoded values (`item['features'] += workspace_value`):
list extension (a string or dict on the right is iterated), string
concatenation, integer addition (booleans count as integers); every other
combination raises `TypeError`. -/
def pyIAdd (a b : Toml) : Except PyErr Toml :=
  match a, b with
  | .arr xs, .arr ys => .ok (.arr (xs ++ ys))
  | .arr xs, .str s => .ok (.arr (xs ++ s.map (fun c => .str [c])))
  | .arr xs, .table es => .ok (.arr (xs ++ es.map (fun e => .str e.1)))
  | .str a, .str b => .ok (.str (a ++ b))
  | .int a, .int b => .ok (.int (a + b))
  | .int a, .boolean b => .ok (.int (a + if b then 1 else 0))
  | .boolean a, .int b => .ok (.int ((if a then 1 else 0) + b))
  | .boolean a, .boolean b => .ok (.int ((if a then 1 else 0) + (if b then 1 else 0)))
  | _, _ => .error .typeError

/-- The `for dep_key, workspace_value in workspace_item.items()` loop of the
dict-valued workspace merge: `features` entries are concatenated onto an
existing `features` key, everything else is assigned. -/
def mergeLoop (item : List (Str × Toml)) : List (Str × Toml) →
    Except PyErr (List (Str × Toml))
  | [] => .ok item
  | (dk, wv) :: rest =>
    match pyGet "features".data item with
    | some fv =>
      if dk = "features".data then do
        let nv ← pyIAdd fv wv
        mergeLoop (pySet "features".data nv item) rest
      else
        mergeLoop (pySet dk wv item) rest
    | none => mergeLoop (pySet dk wv item) rest

/-- Fuel-indexed worker for `update_workspace_keys`; one unit of fuel is spent
per list entry and per recursion into a nested table, so any fuel at least
the table's structural size behaves like the Python recursion.  The
`targetMode` flag selects the `for target in item.values():
update_workspace_keys(target, workspace)` loop of the `target` branch, where
every value is recursed into (a non-dict value makes `pkg.items()` raise
`AttributeError`). -/
def uwkF : Nat → List (Str × Toml) → Option Toml → Bool →
    Except PyErr (List (Str × Toml))
  | _, [], _, _ => .ok []
  | 0, pkg, _, _ => .ok pkg
  | fuel + 1, (key, item) :: rest, ws, true => do
    let item' ←
      match item with
      | .table tes => do
        let r ← uwkF fuel tes ws false
        pure (Toml.table r)
      | _ => .error .attributeError
    let rest' ← uwkF fuel rest ws true
    .ok ((key, item') :: rest')
  | fuel + 1, (key, item) :: rest, ws, false => do
    let item' ←
      match item with
      | .table ies =>
        if key = "target".data then do
          let ies' ← uwkF fuel ies ws true
          pure (Toml.table ies')
        else if key = "dev-dependencies".data ∨ key = "build-dependencies".data then
          -- recurse against `workspace.get('dependencies', None)`;
          -- `None.get` and `.get` on a non-dict raise `AttributeError`.
          match ws with
          | some (.table wes) => do
            let r ← uwkF fuel ies (pyGet "dependencies".data wes) false
            pure (Toml.table r)
          | _ => .error .attributeError
        else
          match ws with
          | none => pure item
          | some w =>
            if !pyTruthy w then
              pure item
            else do
              let mem ← pyContains w key
              if !mem then
                pure item
              else do
                let workspace_item ← pyIndex w key
                if (pyGet "workspace".data ies).isSome then
                  match workspace_item with
                  | .table wies => do
                    let ies2 ← mergeLoop (pyDel "workspace".data ies) wies
                    pure (Toml.table ies2)
                  | _ =>
                    if ies.length > 1 then
                      pure (Toml.table
                        (pySet "version".data workspace_item (pyDel "workspace".data ies)))
                    else
                      pure workspace_item
                else do
                  let r ← uwkF fuel ies (some workspace_item) false
                  pure (Toml.table r)
      | _ => pure item
    let rest' ← uwkF fuel rest ws false
    .ok ((key, item') :: rest')

/-- `update_workspace_keys(pkg, workspace)`, returning the mutated `pkg`.
The function never writes through its `workspace` argument (the only
mutations in its body target `pkg` and sub-objects of `pkg`), so the
workspace value is left unchanged by construction of this embedding. -/
def update_workspace_keys (pkg : List (Str × Toml)) (ws : Option Toml) :
    Except PyErr (List (Str × Toml)) :=
  uwkF (tomlTableSize pkg) pkg ws false

/-- The per-entry computation of `update_workspace_keys` (the body of the
`for key, item in pkg.items()` loop), abstracted over the recursive call.
`uwkEntryGen (uwkF fuel) key item ws` is definitionally the entry step that
`uwkF (fuel + 1)` performs, which gives the loop a nameable one-step
unfolding. -/
def uwkEntryGen
    (recurse : List (Str × Toml) → Option Toml → Bool → Except PyErr (List (Str × Toml)))
    (key : Str) (item : Toml) (ws : Option Toml) : Except PyErr Toml :=
  match item with
  | .table ies =>
    if key = "target".data then do
      let ies' ← recurse ies ws true
      pure (Toml.table ies')
    else if key = "dev-dependencies".data ∨ key = "build-dependencies".data then
      match ws with
      | some (.table wes) => do
        let r ← recurse ies (pyGet "dependencies".data wes) false
        pure (Toml.table r)
      | _ => .error .attributeError
    else
      match ws with
      | none => pure item
      | some w =>
        if !pyTruthy w then
          pure item
        else do
          let mem ← pyContains w key
          if !mem then
            pure item
          else do
            let workspace_item ← pyIndex w key
            if (pyGet "workspace".data ies).isSome then
              match workspace_item with
              | .table wies => do
                let ies2 ← mergeLoop (pyDel "workspace".data ies) wies
                pure (Toml.table ies2)
              | _ =>
                if ies.length > 1 then
                  pure (Toml.table
                    (pySet "version".data workspace_item (pyDel "workspace".data ies)))
                else
                  pure workspace_item
            else do
              let r ← recurse ies (some workspace_item) false
              pure (Toml.table r)
  | _ => pure item

theorem exceptBind_congr {ε α β : Type} {a a' : Except ε α} {f f' : α → Except ε β}
    (ha : a = a') (hf : ∀ x, f x = f' x) : (a >>= f) = (a' >>= f') := by
  subst ha
  cases a <;> simp [hf]

theorem exceptBind_ite {ε α β : Type} (c : Prop) [Decidable c] (x y : Except ε α)
    (f : α → Except ε β) : ((if c then x else y) >>= f) =
      if c then x >>= f else y >>= f := by
  split <;> rfl

theorem uwkF_cons_false (fuel : Nat) (key : Str) (item : Toml)
    (rest : List (Str × Toml)) (ws : Option Toml) :
    uwkF (fuel + 1) ((key, item) :: rest) ws false = (do
      let item' ← uwkEntryGen (uwkF fuel) key item ws
      let rest' ← uwkF fuel rest ws false
      .ok ((key, item') :: rest')) := by
  cases item with
  | str s => rfl
  | int n => rfl
  | boolean b => rfl
  | arr xs => rfl
  | table ies =>
    simp only [uwkF, uwkEntryGen]
    by_cases hk : key = "target".data
    · simp only [if_pos hk]
      simp [bind_assoc]
    · simp only [if_neg hk]
      by_cases hdev : key = "dev-dependencies".data ∨ key = "build-dependencies".data
      · simp only [if_pos hdev]
        cases ws with
        | none => simp
        | some w => cases w <;> simp [bind_assoc]
      · simp only [if_neg hdev]
        cases ws with
        | none => simp
        | some w =>
          simp only []
          by_cases htr : !pyTruthy w
          · simp [htr]
          · simp only [if_neg htr]
            rw [bind_assoc]
            refine exceptBind_congr rfl (fun mem => ?_)
            rw [exceptBind_ite]
            by_cases hmem : !mem
            · simp [hmem]
            · simp only [if_neg hmem]
              rw [bind_assoc]
              refine exceptBind_congr rfl (fun wsi => ?_)
              rw [exceptBind_ite]
              by_cases hin : (pyGet "workspace".data ies).isSome
              · simp only [if_pos hin]
                cases wsi <;> simp [bind_assoc, exceptBind_ite]
              · simp only [if_neg hin]
                simp [bind_assoc]

theorem tomlTableSize_pos : ∀ es : List (Str × Toml), 1 ≤ tomlTableSize es
  | [] => le_refl 1
  | (_, v) :: es => by simp only [tomlTableSize]; omega

theorem tomlSize_pos : ∀ t : Toml, 1 ≤ tomlSize t
  | .str _ => le_refl 1
  | .int _ => le_refl 1
  | .boolean _ => le_refl 1
  | .arr xs => by simp only [tomlSize]; omega
  | .table es => by simp only [tomlSize]; omega

theorem tomlTableSize_cons (k : Str) (v : Toml) (rest : List (Str × Toml)) :
    tomlTableSize ((k, v) :: rest) = 1 + tomlSize v + tomlTableSize rest := rfl

theorem tomlSize_table (es : List (Str × Toml)) :
    tomlSize (.table es) = 1 + tomlTableSize es := rfl

/-- The fuel of `uwkF` is irrelevant as soon as it dominates the structural
size of the table (so `update_workspace_keys` is the Python recursion). -/
theorem uwkF_irrel : ∀ (f g : Nat) (pkg : List (Str × Toml)) (ws : Option Toml)
    (mode : Bool), tomlTableSize pkg ≤ f → tomlTableSize pkg ≤ g →
    uwkF f pkg ws mode = uwkF g pkg ws mode := by
  intro f
  induction f using Nat.strong_induction_on with
  | _ f IH =>
    intro g pkg ws mode hf hg
    match pkg with
    | [] => simp only [uwkF]
    | (key, item) :: rest =>
      rw [tomlTableSize_cons] at hf hg
      have hip := tomlSize_pos item
      have hrp := tomlTableSize_pos rest
      cases f with
      | zero => omega
      | succ f' =>
        cases g with
        | zero => omega
        | succ g' =>
          have hf' : f' < f' + 1 := Nat.lt_succ_self f'
          have hrest : uwkF f' rest ws mode = uwkF g' rest ws mode :=
            IH f' hf' g' rest ws mode (by omega) (by omega)
          have hitem : ∀ tes : List (Str × Toml), tomlSize item = 1 + tomlTableSize tes →
              ∀ ws' mode', uwkF f' tes ws' mode' = uwkF g' tes ws' mode' := by
            intro tes htes ws' mode'
            exact IH f' hf' g' tes ws' mode' (by omega) (by omega)
          cases mode with
          | true =>
            cases item with
            | table tes =>
              simp only [uwkF]
              rw [hrest, hitem tes rfl ws false]
            | str s => simp only [uwkF]; rw [hrest]
            | int n => simp only [uwkF]; rw [hrest]
            | boolean b => simp only [uwkF]; rw [hrest]
            | arr xs => simp only [uwkF]; rw [hrest]
          | false =>
            cases item with
            | str s => simp only [uwkF]; rw [hrest]
            | int n => simp only [uwkF]; rw [hrest]
            | boolean b => simp only [uwkF]; rw [hrest]
            | arr xs => simp only [uwkF]; rw [hrest]
            | table ies =>
              simp only [uwkF]
              rw [hrest]
              by_cases hk : key = "target".data
              · simp only [hk, if_pos rfl]
                exact exceptBind_congr (hitem ies rfl ws true) (fun _ => rfl)
              · rw [if_neg hk, if_neg hk]
                by_cases hdev : key = "dev-dependencies".data ∨ key = "build-dependencies".data
                · rw [if_pos hdev, if_pos hdev]
                  cases ws with
                  | none => rfl
                  | some w =>
                    cases w with
                    | table wes =>
                      exact exceptBind_congr
                        (hitem ies rfl (pyGet "dependencies".data wes) false)
                        (fun _ => rfl)
                    | str s => rfl
                    | int n => rfl
                    | boolean b => rfl
                    | arr xs => rfl
                · rw [if_neg hdev, if_neg hdev]
                  cases ws with
                  | none => rfl
                  | some w =>
                    simp only []
                    by_cases htr : !pyTruthy w
                    · rw [if_pos htr, if_pos htr]
                    · rw [if_neg htr, if_neg htr]
                      refine exceptBind_congr rfl (fun mem => ?_)
                      by_cases hmem : !mem
                      · rw [if_pos hmem, if_pos hmem]
                      · rw [if_neg hmem, if_neg hmem]
                        refine exceptBind_congr rfl (fun wsi => ?_)
                        by_cases hin : (pyGet "workspace".data ies).isSome
                        · rw [if_pos hin, if_pos hin]
                        · rw [if_neg hin, if_neg hin]
                          exact exceptBind_congr (hitem ies rfl (some wsi) false)
                            (fun _ => rfl)

/-- `_GitPackage`. -/
structure GitPackage where
  path : Str
  package : List (Str × Toml)
  workspace : Option Toml
deriving DecidableEq

/-- `_GitPackage.normalized`: deep-copy the raw manifest (value semantics make
the copy implicit), then merge workspace keys into the copy when workspace
defaults are present. -/
def GitPackage.normalized (gp : GitPackage) : Except PyErr (List (Str × Toml)) :=
  match gp.workspace with
  | none => .ok gp.package
  | some ws => update_workspace_keys gp.package (some ws)

/-- The `normalized` property as a state transformer: the returned value
together with the `_GitPackage` (and the workspace object it references) as
the Python property leaves them.  The body copies `self.package` with
`copy.deepcopy` before mutating it, and `update_workspace_keys` performs no
write through its `workspace` argument (every mutation in its body —
`del item[...]`, `item[...] = ...`, `item.update(...)`, `pkg[key] = ...`,
`item['features'] += ...` — targets the copied package or its sub-objects),
so the fields of the record are returned unchanged. -/
def GitPackage.normalizedRun (gp : GitPackage) :
    Except PyErr (List (Str × Toml)) × GitPackage :=
  let packageCopy := gp.package
  match gp.workspace with
  | none => (.ok packageCopy, gp)
  | some ws => (update_workspace_keys packageCopy (some ws), gp)

/-- Sanity check of the workspace merge against the Python implementation:
scalar inheritance, dict merge with feature concatenation, dev-dependencies
against root dependencies, and recursion under `target`. -/
example :
    update_workspace_keys
      [("package".data, .table [("name".data, .str "bar".data),
          ("version".data, .table [("workspace".data, .boolean true)])]),
       ("dependencies".data, .table [("serde".data,
          .table [("workspace".data, .boolean true),
                  ("features".data, .arr [.str "extra".data])])]),
       ("dev-dependencies".data, .table [("serde".data,
          .table [("workspace".data, .boolean true)])]),
       ("target".data, .table [("cfg(unix)".data, .table [("dependencies".data,
          .table [("libc".data, .table [("workspace".data, .boolean true)])])])])]
      (some (.table
        [("package".data, .table [("version".data, .str "1.2.3".data)]),
         ("dependencies".data, .table
           [("serde".data, .table [("version".data, .str "1.0".data),
              ("features".data, .arr [.str "derive".data])]),
            ("libc".data, .str "0.2".data)])])) =
    .ok
      [("package".data, .table [("name".data, .str "bar".data),
          ("version".data, .str "1.2.3".data)]),
       ("dependencies".data, .table [("serde".data,
          .table [("features".data, .arr [.str "extra".data, .str "derive".data]),
                  ("version".data, .str "1.0".data)])]),
       ("dev-dependencies".data, .table [("serde".data,
          .table [("version".data, .str "1.0".data),
                  ("features".data, .arr [.str "derive".data])])]),
       ("target".data, .table [("cfg(unix)".data, .table [("dependencies".data,
          .table [("libc".data, .str "0.2".data)])])])] := by decide

/-! ### Lock entries and fetch-operation generation

`get_git_repo_packages` (which clones and walks the repository on disk) and
`get_remote_sha256` (which streams a download) are abstracted by oracles: a
`ScanOracle` gives the package map found in a repository at a commit, and a
hash oracle gives the checksum of a tarball URL.  `asyncio.gather` with the
per-repository lock is embedded sequentially: packages are resolved in lock
order against the threaded `git_repos` state, which the locking discipline
guarantees for every schedule. -/

/-- One `[[package]]` entry of the decoded `Cargo.lock`. -/
structure LockPackage where
  name : Str
  version : Str
  source : Option Str
  checksum : Option Str
deriving DecidableEq

/-- The decoded `Cargo.lock`: package list plus optional `metadata` table. -/
structure CargoLock where
  package : List LockPackage
  metadata : Option (List (Str × Str))
deriving DecidableEq

/-- Result of scanning one repository commit (`get_git_repo_packages`). -/
abbrev PackagesMap := List (Str × GitPackage)

/-- The `git_repos` coordination state: canonical repository URL to commit
to scanned package map. -/
abbrev GitRepos := List (Str × List (Str × PackagesMap))

/-- Oracle for `get_git_repo_packages`: repository URL and commit to the
package map its manifest walk produces. -/
abbrev ScanOracle := Str → Str → PackagesMap

/-- A generated flatpak source (`_FlatpakSourceType`).  Inline files whose
contents the script serializes with `toml.dumps` carry the TOML value
itself. -/
inductive FlatpakSource where
  | archive (url sha256 dest : Str)
  | git (url commit dest : Str)
  | shell (commands : List Str)
  | inline (contents dest destFilename : Str)
  | inlineToml (contents : Toml) (dest destFilename : Str)
deriving DecidableEq

/-- `json.dumps({'package': checksum, 'files': {}})` for a checksum that
needs no JSON escaping (the script passes hex digests or `None`). -/
def jsonChecksum : Option Str → Str
  | none => "\x7b\"package\": null, \"files\": \x7b\x7d\x7d".data
  | some c => "\x7b\"package\": \"".data ++ c ++ "\", \"files\": \x7b\x7d\x7d".data

/-- A `cargo_vendored_entry` value: registry identifier to redirect record. -/
abbrev VendorEntries := List (Str × List (Str × Str))

/-- The `rev`/`tag`/`branch` annotation of the vendored-sources entry
(priority `rev > tag > branch`, each asserted to carry exactly one value). -/
def vendorAnnotation (entry : List (Str × Str)) (qs : List (Str × List Str)) :
    Except PyErr (List (Str × Str)) :=
  match pyGet "rev".data qs with
  | some vs =>
    if vs.length = 1 then pure (entry ++ [("rev".data, vs.headD [])])
    else .error .assertionError
  | none =>
    match pyGet "tag".data qs with
    | some vs =>
      if vs.length = 1 then pure (entry ++ [("tag".data, vs.headD [])])
      else .error .assertionError
    | none =>
      match pyGet "branch".data qs with
      | some vs =>
        if vs.length = 1 then pure (entry ++ [("branch".data, vs.headD [])])
        else .error .assertionError
      | none => pure entry

/-- `get_git_package_sources`: extract the pinned commit from the source URL
fragment (`AssertionError` when absent), canonicalize the repository URL,
consult the per-repository memo (scanning once per repository and commit,
recorded in the returned scan log), build the vendor-registry entry annotated
with `rev`/`tag`/`branch`, and emit the copy, normalized-manifest and
checksum-marker operations. -/
def get_git_package_sources (scan : ScanOracle) (p : LockPackage)
    (repos : GitRepos) :
    Except PyErr (List FlatpakSource × VendorEntries × GitRepos × List (Str × Str)) := do
  let source ← match p.source with
    | some s => pure s
    | none => .error .keyError
  let pr ← pyUrlparse source
  let commit := pr.fragment
  if commit = [] then
    .error .assertionError
  else
    let canonical ← canonical_url source
    let repo_url := geturl canonical
    let repos := if (pyGet repo_url repos).isSome then repos else repos ++ [(repo_url, [])]
    let commits := (pyGet repo_url repos).getD []
    let (repos, scans) ←
      if (pyGet commit commits).isSome then
        pure (repos, ([] : List (Str × Str)))
      else do
        let packages := scan repo_url commit
        -- `assert packages` in `get_git_repo_packages`
        if packages = [] then
          .error .assertionError
        else
          pure (pySet repo_url (commits ++ [(commit, packages)]) repos,
            [(repo_url, commit)])
    let entry ← vendorAnnotation
      [("git".data, repo_url), ("replace-with".data, VENDORED_SOURCES)]
      (pyParseQs pr.query)
    let cargo_vendored_entry : VendorEntries := [(repo_url, entry)]
    let commitPkgs := (pyGet commit ((pyGet repo_url repos).getD [])).getD []
    let git_pkg ← match pyGet p.name commitPkgs with
      | some g => pure g
      | none => .error .keyError
    let repoName ← git_repo_name repo_url commit
    let pkg_repo_dir := GIT_CACHE ++ "/".data ++ repoName ++ "/".data ++ git_pkg.path
    let dest := CARGO_CRATES ++ "/".data ++ p.name
    let norm ← git_pkg.normalized
    let git_sources : List FlatpakSource :=
      [.shell ["cp -r --reflink=auto \"".data ++ pkg_repo_dir ++ "\" \"".data ++
          dest ++ "\"".data],
       .inlineToml (.table norm) dest "Cargo.toml".data,
       .inline (jsonChecksum none) dest ".cargo-checksum.json".data]
    pure (git_sources, cargo_vendored_entry, repos, scans)

/-- `get_package_sources`: path-local entries produce nothing; `git+` sources
delegate to `get_git_package_sources`; registry entries look up a checksum in
the lock metadata and then inline on the entry, are skipped when neither
exists, and otherwise produce the crate archive download plus checksum
marker. -/
def get_package_sources (scan : ScanOracle) (p : LockPackage) (lock : CargoLock)
    (repos : GitRepos) :
    Except PyErr (Option (List FlatpakSource × VendorEntries) × GitRepos × List (Str × Str)) :=
  match p.source with
  | none => .ok (none, repos, [])
  | some s =>
    if "git+".data.isPrefixOf s then
      (get_git_package_sources scan p repos).map
        (fun r => (some (r.1, r.2.1), r.2.2.1, r.2.2.2))
    else
      let key := "checksum ".data ++ p.name ++ " ".data ++ p.version ++
        " (".data ++ s ++ ")".data
      let checksum? :=
        match lock.metadata with
        | some md =>
          match pyGet key md with
          | some c => some c
          | none => p.checksum
        | none => p.checksum
      match checksum? with
      | none => .ok (none, repos, [])
      | some checksum =>
        let dest := CARGO_CRATES ++ "/".data ++ p.name ++ "-".data ++ p.version
        .ok (some
          ([.archive ( CRATES_IO ++ "/".data ++ p.name ++ "/".data ++ p.name ++
              "-".data ++ p.version ++ ".crate".data) checksum dest,
            .inline (jsonChecksum (some checksum)) dest ".cargo-checksum.json".data],
           [("crates-io".data, [("replace-with".data, VENDORED_SOURCES)])]),
          repos, [])

/-- `get_git_repo_sources`: the per-`(repository, commit)` fetch operation —
a tarball archive (hashed by the download oracle) or a git clone. -/
def get_git_repo_sources (sha : Str → Str) (url commit : Str) (tarball : Bool) :
    Except PyErr (List FlatpakSource) := do
  let name ← git_repo_name url commit
  if tarball then do
    let turl ← get_git_tarball url commit
    pure [.archive turl (sha turl) (GIT_CACHE ++ "/".data ++ name)]
  else
    pure [.git url commit (GIT_CACHE ++ "/".data ++ name)]

/-- The per-package resolution loop of `generate_sources`, threading the
`git_repos` state and accumulating package sources, vendored-source entries
and the scan log. -/
def genPkgLoop (scan : ScanOracle) (lock : CargoLock) :
    List LockPackage → GitRepos → List FlatpakSource → VendorEntries →
    List (Str × Str) →
    Except PyErr (GitRepos × List FlatpakSource × VendorEntries × List (Str × Str))
  | [], repos, acc, ven, scans => .ok (repos, acc, ven, scans)
  | p :: rest, repos, acc, ven, scans => do
    let (res, repos', scans') ← get_package_sources scan p lock repos
    match res with
    | none => genPkgLoop scan lock rest repos' acc ven (scans ++ scans')
    | some (srcs, ven') =>
      genPkgLoop scan lock rest repos' (acc ++ srcs) (pyUpdate ven ven') (scans ++ scans')

/-- The clone-emission loop of `generate_sources`: one
`get_git_repo_sources` call per commit recorded for one repository. -/
def genCommitLoop (sha : Str → Str) (tarball : Bool) (url : Str) :
    List (Str × PackagesMap) → Except PyErr (List FlatpakSource)
  | [] => .ok []
  | (commit, _) :: rest => do
    let s ← get_git_repo_sources sha url commit tarball
    let r ← genCommitLoop sha tarball url rest
    .ok (s ++ r)

/-- The clone-emission loop of `generate_sources` over all repositories, in
`git_repos` insertion order. -/
def genRepoLoop (sha : Str → Str) (tarball : Bool) :
    GitRepos → Except PyErr (List FlatpakSource)
  | [] => .ok []
  | (url, commits) :: rest => do
    let here ← genCommitLoop sha tarball url commits
    let more ← genRepoLoop sha tarball rest
    .ok (here ++ more)

/-- The vendored-sources map as the TOML value written to `cargo/config`. -/
def vendoredToml (ven : VendorEntries) : Toml :=
  .table [("source".data,
    .table (ven.map (fun kv => (kv.1, Toml.table (kv.2.map (fun ab => (ab.1, Toml.str ab.2)))))))]

/-- `generate_sources`: resolve every lock entry, then emit all
per-`(repository, commit)` fetch operations, the per-package operations, and
the final `cargo/config` redirect; also returns the manifest-scan log. -/
def generate_sources (scan : ScanOracle) (sha : Str → Str) (lock : CargoLock)
    (git_tarballs : Bool) :
    Except PyErr (List FlatpakSource × List (Str × Str)) := do
  let ven0 : VendorEntries := [(VENDORED_SOURCES, [("directory".data, CARGO_CRATES)])]
  let (repos, pkgSrcs, ven, scans) ← genPkgLoop scan lock lock.package [] [] ven0 []
  let cloneSrcs ← genRepoLoop sha git_tarballs repos
  let cfg := FlatpakSource.inlineToml (vendoredToml ven) CARGO_HOME "config".data
  pure (cloneSrcs ++ pkgSrcs ++ [cfg], scans)

/-- Membership of a `(repository URL, commit)` pair in the `git_repos`
memo: the commit is recorded under the repository's entry. -/
def pairMem (q : Str × Str) (st : GitRepos) : Bool :=
  match pyGet q.1 st with
  | some commits => (pyGet q.2 commits).isSome
  | none => false

/-- Whether a generated source is the clone operation for repository `u` at
commit `c`. -/
def isCloneOf (u c : Str) : FlatpakSource → Bool
  | .git url commit _ => url == u && commit == c
  | _ => false

/-- Well-formedness of the `git_repos` state: repository keys are distinct
and each repository's commit keys are distinct (Python dict keys). -/
def stWF (st : GitRepos) : Prop :=
  (st.map Prod.fst).Nodup ∧ ∀ e ∈ st, (e.2.map Prod.fst).Nodup

/-- Number of times a scan of pair `q` was logged. -/
def logCount (q : Str × Str) (log : List (Str × Str)) : Nat :=
  log.countP (fun x => x == q)

/-! ### Claim C8: a git source without a pinned commit is fatal -/

/-- C8: for every lock entry whose source string begins with the `git+`
indicator but whose URL has an empty fragment, resolution raises
`AssertionError` (a fatal error aborting the run) instead of producing a
fetch plan. -/
theorem C8_git_source_without_commit_fatal
    (scan : ScanOracle) (lock : CargoLock) (p : LockPackage) (repos : GitRepos)
    (s : Str) (hs : p.source = some s)
    (hgit : "git+".data.isPrefixOf s = true)
    (pr : ParseResult) (hparse : pyUrlparse s = .ok pr)
    (hfrag : pr.fragment = []) :
    get_package_sources scan p lock repos = .error .assertionError := by
  have h1 : get_git_package_sources scan p repos = .error .assertionError := by
    rw [get_git_package_sources.eq_def]
    simp only [hs]
    rw [exceptPure_bind, hparse, exceptBind_ok, hfrag, if_pos rfl]
  rw [get_package_sources.eq_def]
  simp only [hs]
  rw [if_pos hgit, h1]
  rfl

theorem C8_witness :
    get_package_sources (fun _ _ => [])
      ⟨"bar".data, "0.1.0".data, some "git+https://example.com/org/repo".data, none⟩
      ⟨[], none⟩ [] = .error .assertionError := by
  have h := C8_git_source_without_commit_fatal (fun _ _ => []) ⟨[], none⟩
    ⟨"bar".data, "0.1.0".data, some "git+https://example.com/org/repo".data, none⟩
    [] "git+https://example.com/org/repo".data rfl (by decide)
    ⟨"git+https".data, "example.com".data, "/org/repo".data, [], [], []⟩
    (by decide) rfl
  exact h

/-! ### Claim C10: tarball construction only for known hosts -/

/-- C10: `get_git_tarball` succeeds only when the canonical path has exactly
two components (owner/repo) and the hostname is `github.com`, has first label
`gitlab`, or is `bitbucket.org`; when the path has two components and a
hostname is present but not one of these, it raises a fatal `ValueError`. -/
theorem C10_git_tarball_hosts (repo_url commit : Str) :
    (∀ out, get_git_tarball repo_url commit = .ok out →
      ∃ c, canonical_url repo_url = .ok c ∧
        ((pySplitChar '/' c.path).drop 1).length = 2 ∧
        ∃ h, hostname c = some h ∧
          (h = "github.com".data ∨ (pySplitChar '.' h).headD [] = "gitlab".data ∨
           h = "bitbucket.org".data)) ∧
    (∀ c h, canonical_url repo_url = .ok c →
      ((pySplitChar '/' c.path).drop 1).length = 2 →
      hostname c = some h →
      h ≠ "github.com".data →
      (pySplitChar '.' h).headD [] ≠ "gitlab".data →
      h ≠ "bitbucket.org".data →
      get_git_tarball repo_url commit = .error .valueError) := by
  constructor
  · intro out hout
    cases hc : canonical_url repo_url with
    | error e =>
      rw [get_git_tarball, hc] at hout
      exact absurd hout (by intro h; cases h)
    | ok c =>
      refine ⟨c, rfl, ?_⟩
      simp only [get_git_tarball, hc, exceptBind_ok] at hout
      cases hsplit : (pySplitChar '/' c.path).drop 1 with
      | nil => rw [hsplit] at hout; exact absurd hout (by intro h; cases h)
      | cons a t =>
        cases t with
        | nil => rw [hsplit] at hout; exact absurd hout (by intro h; cases h)
        | cons b t2 =>
          cases t2 with
          | cons x t3 => rw [hsplit] at hout; exact absurd hout (by intro h; cases h)
          | nil =>
            simp only [hsplit] at hout
            refine ⟨by simp, ?_⟩
            cases hh : hostname c with
            | none =>
              simp only [hh] at hout
              exact absurd hout (by intro h; cases h)
            | some h =>
              refine ⟨h, rfl, ?_⟩
              simp only [hh] at hout
              by_cases h1 : h = "github.com".data
              · exact Or.inl h1
              · by_cases h2 : (pySplitChar '.' h).headD [] = "gitlab".data
                · exact Or.inr (Or.inl h2)
                · by_cases h3 : h = "bitbucket.org".data
                  · exact Or.inr (Or.inr h3)
                  · rw [if_neg h1, if_neg h2, if_neg h3] at hout
                    exact absurd hout (by intro hx; cases hx)
  · intro c h hc hlen hh h1 h2 h3
    simp only [get_git_tarball, hc, exceptBind_ok]
    cases hsplit : (pySplitChar '/' c.path).drop 1 with
    | nil => rw [hsplit] at hlen; simp at hlen
    | cons a t =>
      cases t with
      | nil => rw [hsplit] at hlen; simp at hlen
      | cons b t2 =>
        cases t2 with
        | cons x t3 => rw [hsplit] at hlen; simp at hlen
        | nil =>
          simp only [hsplit, hh]
          rw [if_neg h1, if_neg h2, if_neg h3]

/-! ### Claim C2: registry package end-to-end -/

/-- C2: a lock file with exactly one registry package `foo 1.0.0` whose
checksum `abc123` comes from the inline field (or, second conjunct, from the
`metadata` table) generates exactly the crate archive download — whose URL
ends in `/foo/foo-1.0.0.crate`, with `sha256 = abc123` and destination
`cargo/vendor/foo-1.0.0` — the inline `.cargo-checksum.json` file at the same
destination with contents `{"package": "abc123", "files": {}}`, and the final
config redirect. -/
theorem C2_registry_package_end_to_end
    (scan : ScanOracle) (sha : Str → Str) (src : Str)
    (hsrc : "git+".data.isPrefixOf src = false) :
    (generate_sources scan sha
      ⟨[⟨"foo".data, "1.0.0".data, some src, some "abc123".data⟩], none⟩ false =
    .ok ([.archive "https://static.crates.io/crates/foo/foo-1.0.0.crate".data
            "abc123".data "cargo/vendor/foo-1.0.0".data,
          .inline (jsonChecksum (some "abc123".data)) "cargo/vendor/foo-1.0.0".data
            ".cargo-checksum.json".data,
          .inlineToml (vendoredToml
            [(VENDORED_SOURCES, [("directory".data, CARGO_CRATES)]),
             ("crates-io".data, [("replace-with".data, VENDORED_SOURCES)])])
            CARGO_HOME "config".data], [])) ∧
    (generate_sources scan sha
      ⟨[⟨"foo".data, "1.0.0".data, some src, none⟩],
       some [("checksum foo 1.0.0 (".data ++ src ++ ")".data, "abc123".data)]⟩ false =
    .ok ([.archive "https://static.crates.io/crates/foo/foo-1.0.0.crate".data
            "abc123".data "cargo/vendor/foo-1.0.0".data,
          .inline (jsonChecksum (some "abc123".data)) "cargo/vendor/foo-1.0.0".data
            ".cargo-checksum.json".data,
          .inlineToml (vendoredToml
            [(VENDORED_SOURCES, [("directory".data, CARGO_CRATES)]),
             ("crates-io".data, [("replace-with".data, VENDORED_SOURCES)])])
            CARGO_HOME "config".data], [])) ∧
    "/foo/foo-1.0.0.crate".data.isSuffixOf
      "https://static.crates.io/crates/foo/foo-1.0.0.crate".data = true ∧
    jsonChecksum (some "abc123".data) =
      "\x7b\"package\": \"abc123\", \"files\": \x7b\x7d\x7d".data := by
  refine ⟨?_, ?_, by decide, by decide⟩
  · have hres : get_package_sources scan
        ⟨"foo".data, "1.0.0".data, some src, some "abc123".data⟩
        ⟨[⟨"foo".data, "1.0.0".data, some src, some "abc123".data⟩], none⟩ [] =
        .ok (some
          ([.archive "https://static.crates.io/crates/foo/foo-1.0.0.crate".data
              "abc123".data "cargo/vendor/foo-1.0.0".data,
            .inline (jsonChecksum (some "abc123".data)) "cargo/vendor/foo-1.0.0".data
              ".cargo-checksum.json".data],
           [("crates-io".data, [("replace-with".data, VENDORED_SOURCES)])]),
          [], []) := by
      rw [get_package_sources.eq_def]
      simp only [hsrc, Bool.false_eq_true, if_false]
      rfl
    rw [generate_sources.eq_def]
    simp only [genPkgLoop, hres, exceptBind_ok]
    rfl
  · have hkey : ("checksum ".data ++ "foo".data ++ " ".data ++ "1.0.0".data ++
        " (".data ++ src ++ ")".data) =
        "checksum foo 1.0.0 (".data ++ src ++ ")".data := by
      simp
    have hres : get_package_sources scan
        ⟨"foo".data, "1.0.0".data, some src, none⟩
        ⟨[⟨"foo".data, "1.0.0".data, some src, none⟩],
         some [("checksum foo 1.0.0 (".data ++ src ++ ")".data, "abc123".data)]⟩ [] =
        .ok (some
          ([.archive "https://static.crates.io/crates/foo/foo-1.0.0.crate".data
              "abc123".data "cargo/vendor/foo-1.0.0".data,
            .inline (jsonChecksum (some "abc123".data)) "cargo/vendor/foo-1.0.0".data
              ".cargo-checksum.json".data],
           [("crates-io".data, [("replace-with".data, VENDORED_SOURCES)])]),
          [], []) := by
      rw [get_package_sources.eq_def]
      simp only [hsrc, Bool.false_eq_true, if_false, pyGet, hkey, if_pos]
      rfl
    rw [generate_sources.eq_def]
    simp only [genPkgLoop, hres, exceptBind_ok]
    rfl

theorem C2_witness :
    generate_sources (fun _ _ => []) (fun _ => [])
      ⟨[⟨"foo".data, "1.0.0".data,
         some "registry+https://github.com/rust-lang/crates.io-index".data,
         some "abc123".data⟩], none⟩ false =
    .ok ([.archive "https://static.crates.io/crates/foo/foo-1.0.0.crate".data
            "abc123".data "cargo/vendor/foo-1.0.0".data,
          .inline (jsonChecksum (some "abc123".data)) "cargo/vendor/foo-1.0.0".data
            ".cargo-checksum.json".data,
          .inlineToml (vendoredToml
            [(VENDORED_SOURCES, [("directory".data, CARGO_CRATES)]),
             ("crates-io".data, [("replace-with".data, VENDORED_SOURCES)])])
            CARGO_HOME "config".data], []) :=
  (C2_registry_package_end_to_end (fun _ _ => []) (fun _ => [])
    "registry+https://github.com/rust-lang/crates.io-index".data (by decide)).1

/-! ### Claim C7: registry package without any checksum is skipped -/

/-- C7: a registry lock entry with neither a metadata checksum entry nor an
inline checksum resolves to no fetch plan (with the state unchanged and no
scan), and a run over a lock file containing only that entry completes
without error, emitting only the final config redirect. -/
theorem C7_missing_checksum_skipped
    (scan : ScanOracle) (sha : Str → Str) (p : LockPackage) (lock : CargoLock)
    (repos : GitRepos) (s : Str)
    (hs : p.source = some s) (hgit : "git+".data.isPrefixOf s = false)
    (hcs : p.checksum = none)
    (hmd : ∀ m, lock.metadata = some m →
      pyGet ("checksum ".data ++ p.name ++ " ".data ++ p.version ++ " (".data ++
        s ++ ")".data) m = none) :
    get_package_sources scan p lock repos = .ok (none, repos, []) ∧
    generate_sources scan sha ⟨[p], lock.metadata⟩ false =
      .ok ([.inlineToml (vendoredToml [(VENDORED_SOURCES,
        [("directory".data, CARGO_CRATES)])]) CARGO_HOME "config".data], []) := by
  have h1 : ∀ (lk : CargoLock), lk.metadata = lock.metadata → ∀ (rp : GitRepos),
      get_package_sources scan p lk rp = .ok (none, rp, []) := by
    intro lk hlk rp
    rw [get_package_sources.eq_def]
    simp only [hs]
    rw [if_neg (by simp [hgit])]
    cases hm : lk.metadata with
    | none => simp only [hcs]
    | some m =>
      have := hmd m (by rw [← hm, hlk])
      simp only [this, hcs]
  refine ⟨h1 lock rfl repos, ?_⟩
  rw [generate_sources.eq_def]
  simp only [genPkgLoop, h1 ⟨[p], lock.metadata⟩ rfl [], exceptBind_ok]
  rfl

theorem C7_witness :
    get_package_sources (fun _ _ => [])
      ⟨"baz".data, "2.0.0".data,
       some "registry+https://github.com/rust-lang/crates.io-index".data, none⟩
      ⟨[⟨"baz".data, "2.0.0".data,
         some "registry+https://github.com/rust-lang/crates.io-index".data, none⟩],
       none⟩ [] = .ok (none, [], []) ∧
    generate_sources (fun _ _ => []) (fun _ => [])
      ⟨[⟨"baz".data, "2.0.0".data,
         some "registry+https://github.com/rust-lang/crates.io-index".data, none⟩],
       none⟩ false =
      .ok ([.inlineToml (vendoredToml [(VENDORED_SOURCES,
        [("directory".data, CARGO_CRATES)])]) CARGO_HOME "config".data], []) :=
  C7_missing_checksum_skipped (fun _ _ => []) (fun _ => [])
    ⟨"baz".data, "2.0.0".data,
     some "registry+https://github.com/rust-lang/crates.io-index".data, none⟩
    ⟨[⟨"baz".data, "2.0.0".data,
       some "registry+https://github.com/rust-lang/crates.io-index".data, none⟩],
     none⟩ []
    "registry+https://github.com/rust-lang/crates.io-index".data
    rfl (by decide) rfl (by intro m hm; cases hm)

theorem C10_witness :
    get_git_tarball "https://git.sr.ht/org/repo".data "abc".data =
      .error .valueError :=
  (C10_git_tarball_hosts "https://git.sr.ht/org/repo".data "abc".data).2
    ⟨"https".data, "git.sr.ht".data, "/org/repo".data, [], [], []⟩
    "git.sr.ht".data (by decide) (by decide) (by decide) (by decide) (by decide)
    (by decide)

/-! ### Claim C3: the normalized view is reproducible and leaves the
workspace defaults untouched -/

/-- C3: computing `normalized` leaves the `_GitPackage` — in particular its
workspace-defaults object — unchanged, so computing it a second time yields
the same result; and the run's value is the workspace merge of the deep-copied
manifest.  (The content lies in the embedding of `normalizedRun`: the Python
body deep-copies the manifest and performs no write through the workspace
reference, which is what makes the state components pass through
unchanged.) -/
theorem C3_normalized_repeatable_and_frame (gp : GitPackage) :
    gp.normalizedRun.2 = gp ∧
    gp.normalizedRun.2.workspace = gp.workspace ∧
    gp.normalizedRun.2.normalizedRun.1 = gp.normalizedRun.1 ∧
    gp.normalizedRun.1 = gp.normalized := by
  cases hw : gp.workspace with
  | none => simp [GitPackage.normalizedRun, GitPackage.normalized, hw]
  | some ws => simp [GitPackage.normalizedRun, GitPackage.normalized, hw]

/-! ### Claim C6: dev- and build-dependencies merge against the root
`workspace.dependencies` table -/

theorem consStep_inv {fuel : Nat} {E : Except PyErr Toml} {rest : List (Str × Toml)}
    {ws : Option Toml} {k : Str} {out : List (Str × Toml)}
    (h : (do
        let y ← E
        let rest' ← uwkF fuel rest ws false
        Except.ok ((k, y) :: rest')) = .ok out) :
    ∃ y rest', E = .ok y ∧ uwkF fuel rest ws false = .ok rest' ∧
      out = (k, y) :: rest' := by
  cases hE : E with
  | error e => rw [hE] at h; cases h
  | ok y =>
    rw [hE, exceptBind_ok] at h
    cases hr : uwkF fuel rest ws false with
    | error e => rw [hr] at h; cases h
    | ok rest' =>
      rw [hr, exceptBind_ok] at h
      cases h
      exact ⟨y, rest', rfl, rfl, rfl⟩

theorem uwk_proj : ∀ (fuel : Nat) (pkg : List (Str × Toml)), tomlTableSize pkg ≤ fuel →
    ∀ (wes : List (Str × Toml)) (key : Str),
    (key = "dev-dependencies".data ∨ key = "build-dependencies".data) →
    ∀ (d out : List (Str × Toml)),
    pyGet key pkg = some (.table d) →
    uwkF fuel pkg (some (.table wes)) false = .ok out →
    ∃ r, update_workspace_keys d (pyGet "dependencies".data wes) = .ok r ∧
      pyGet key out = some (.table r) := by
  intro fuel
  induction fuel using Nat.strong_induction_on with
  | _ fuel IH =>
    intro pkg hsize wes key hkey d out hd hout
    match pkg with
    | [] => cases hd
    | (k, item) :: rest =>
      rw [tomlTableSize_cons] at hsize
      have hip := tomlSize_pos item
      have hrp := tomlTableSize_pos rest
      cases fuel with
      | zero => omega
      | succ f' =>
        rw [uwkF_cons_false] at hout
        obtain ⟨y, rest', hE, hrest, hout'⟩ := consStep_inv hout
        by_cases hkk : k = key
        · subst hkk
          rw [pyGet, if_pos rfl] at hd
          cases hd
          have hknt : ¬k = "target".data := by
            rcases hkey with h | h <;> (subst h; decide)
          rw [uwkEntryGen, if_neg hknt, if_pos hkey] at hE
          simp only [] at hE
          cases hr : uwkF f' d (pyGet "dependencies".data wes) false with
          | error e => rw [hr] at hE; cases hE
          | ok r =>
            rw [hr, exceptBind_ok] at hE
            cases hE
            refine ⟨r, ?_, ?_⟩
            · rw [update_workspace_keys, ← hr]
              exact uwkF_irrel _ _ _ _ _ (le_refl _)
                (by have hts := tomlSize_table d; omega)
            · rw [hout', pyGet, if_pos rfl]
        · rw [pyGet, if_neg hkk] at hd
          obtain ⟨r, h1, h2⟩ :=
            IH f' (Nat.lt_succ_self f') rest (by omega) wes key hkey d rest' hd hrest
          exact ⟨r, h1, by rw [hout', pyGet, if_neg hkk]; exact h2⟩

/-- C6: during workspace normalization, the (first) `dev-dependencies` or
`build-dependencies` table of a manifest is merged against the workspace's
root `dependencies` table (`workspace['dependencies']`), for every manifest
and workspace-defaults table: the result at that key is exactly the merge of
the nested table with `workspace['dependencies']`, so workspace entries named
`dev-dependencies`/`build-dependencies` play no role. -/
theorem C6_dev_build_deps_merge_root_dependencies
    (pkg : List (Str × Toml)) (wes : List (Str × Toml)) (key : Str)
    (hkey : key = "dev-dependencies".data ∨ key = "build-dependencies".data)
    (d out : List (Str × Toml))
    (hd : pyGet key pkg = some (.table d))
    (hout : update_workspace_keys pkg (some (.table wes)) = .ok out) :
    ∃ r, update_workspace_keys d (pyGet "dependencies".data wes) = .ok r ∧
      pyGet key out = some (.table r) :=
  uwk_proj (tomlTableSize pkg) pkg (le_refl _) wes key hkey d out hd hout

theorem C6_witness :
    ∃ r, update_workspace_keys
        [("serde".data, Toml.table [("workspace".data, Toml.boolean true)])]
        (pyGet "dependencies".data
          [("dependencies".data, Toml.table [("serde".data, Toml.str "1.0".data)]),
           ("dev-dependencies".data, Toml.table [("serde".data, Toml.str "9.9".data)])]) =
        .ok r ∧
      pyGet "dev-dependencies".data
        [("dev-dependencies".data,
          Toml.table [("serde".data, Toml.str "1.0".data)])] = some (.table r) :=
  C6_dev_build_deps_merge_root_dependencies
    [("dev-dependencies".data,
      Toml.table [("serde".data, Toml.table [("workspace".data, Toml.boolean true)])])]
    [("dependencies".data, Toml.table [("serde".data, Toml.str "1.0".data)]),
     ("dev-dependencies".data, Toml.table [("serde".data, Toml.str "9.9".data)])]
    "dev-dependencies".data (Or.inl rfl)
    [("serde".data, Toml.table [("workspace".data, Toml.boolean true)])]
    [("dev-dependencies".data, Toml.table [("serde".data, Toml.str "1.0".data)])]
    (by decide) (by decide)

/-! ### Claims C1 and C9: fetch deduplication and the clone cache key

State/count infrastructure: the `git_repos` memo as an association
structure, its well-formedness invariant, and counting lemmas for the
package loop, the clone-emission loops and the scan log. -/

def stInsert (q : Str × Str) (pkgs : PackagesMap) (st : GitRepos) : GitRepos :=
  let st1 := if (pyGet q.1 st).isSome then st else st ++ [(q.1, [])]
  pySet q.1 (((pyGet q.1 st1).getD []) ++ [(q.2, pkgs)]) st1

section assoc
variable {α : Type}

theorem pyGet_none_iff (k : Str) (d : List (Str × α)) :
    pyGet k d = none ↔ k ∉ d.map Prod.fst := by
  induction d with
  | nil => simp [pyGet]
  | cons e rest ih =>
    obtain ⟨k', v⟩ := e
    by_cases h : k' = k
    · subst h
      rw [pyGet, if_pos rfl]
      exact iff_of_false (fun h => Option.noConfusion h)
        (fun h => h (List.mem_cons_self _ _))
    · rw [pyGet, if_neg h]
      simp only [List.map_cons, List.mem_cons, ih]
      constructor
      · intro hh hc
        rcases hc with hc | hc
        · exact h hc.symm
        · exact hh hc
      · intro hh hc
        exact hh (Or.inr hc)

theorem pyGet_append_left (k : Str) (d e : List (Str × α)) (v : α)
    (h : pyGet k d = some v) : pyGet k (d ++ e) = some v := by
  induction d with
  | nil => cases h
  | cons x rest ih =>
    obtain ⟨k', v'⟩ := x
    by_cases hk : k' = k
    · subst hk
      rw [pyGet, if_pos rfl] at h
      rw [List.cons_append, pyGet, if_pos rfl]
      exact h
    · rw [pyGet, if_neg hk] at h
      rw [List.cons_append, pyGet, if_neg hk]
      exact ih h

theorem pyGet_append_right (k : Str) (d e : List (Str × α))
    (h : pyGet k d = none) : pyGet k (d ++ e) = pyGet k e := by
  induction d with
  | nil => rfl
  | cons x rest ih =>
    obtain ⟨k', v'⟩ := x
    by_cases hk : k' = k
    · rw [pyGet, if_pos hk] at h; cases h
    · rw [pyGet, if_neg hk] at h
      rw [List.cons_append, pyGet, if_neg hk]
      exact ih h

theorem pyGet_pySet_same (k : Str) (v : α) (d : List (Str × α)) :
    pyGet k (pySet k v d) = some v := by
  induction d with
  | nil => simp [pySet, pyGet]
  | cons x rest ih =>
    obtain ⟨k', v'⟩ := x
    by_cases h : k' = k
    · subst h; simp [pySet, pyGet]
    · simp [pySet, pyGet, h, ih]

theorem pyGet_pySet_ne (k k' : Str) (v : α) (hne : k' ≠ k)
    (d : List (Str × α)) : pyGet k' (pySet k v d) = pyGet k' d := by
  induction d with
  | nil => simp [pySet, pyGet, Ne.symm hne]
  | cons x rest ih =>
    obtain ⟨k'', v'⟩ := x
    by_cases h : k'' = k
    · subst h; simp [pySet, pyGet, Ne.symm hne, ih]
    · simp [pySet, pyGet, h, ih]

theorem pySet_map_fst_present (k : Str) (v : α) (d : List (Str × α))
    (hs : (pyGet k d).isSome) : (pySet k v d).map Prod.fst = d.map Prod.fst := by
  induction d with
  | nil => simp [pyGet] at hs
  | cons x rest ih =>
    obtain ⟨k', v'⟩ := x
    by_cases h : k' = k
    · subst h; simp [pySet, pyGet]
    · rw [pyGet, if_neg h] at hs
      simp [pySet, pyGet, h, ih hs]

theorem pySet_mem {β : Type} (k : Str) (v : β) (d : List (Str × β)) :
    ∀ e ∈ pySet k v d, e = (k, v) ∨ e ∈ d := by
  induction d with
  | nil => intro e he; simp [pySet] at he; simp [he]
  | cons x rest ih =>
    obtain ⟨k', v'⟩ := x
    intro e he
    by_cases h : k' = k
    · subst h
      rw [pySet, if_pos rfl] at he
      rcases List.mem_cons.mp he with he | he
      · exact Or.inl (by simp [he])
      · exact Or.inr (List.mem_cons_of_mem _ he)
    · rw [pySet, if_neg h] at he
      rcases List.mem_cons.mp he with he | he
      · exact Or.inr (by simp [he])
      · rcases ih e he with h1 | h1
        · exact Or.inl h1
        · exact Or.inr (List.mem_cons_of_mem _ h1)

end assoc

theorem pairMem_eq (q : Str × Str) (st : GitRepos) :
    pairMem q st = ((pyGet q.1 st).map (fun commits => (pyGet q.2 commits).isSome)).getD false := by
  rw [pairMem]
  cases pyGet q.1 st <;> rfl

theorem pairMem_stInsert_same (q : Str × Str) (pkgs : PackagesMap) (st : GitRepos) :
    pairMem q (stInsert q pkgs st) = true := by
  rw [pairMem_eq, stInsert]
  simp only [pyGet_pySet_same, Option.map_some', Option.getD_some]
  cases hl : pyGet q.2 ((pyGet q.1
      (if (pyGet q.1 st).isSome then st else st ++ [(q.1, [])])).getD []) with
  | some v => rw [pyGet_append_left _ _ _ _ hl]; rfl
  | none =>
    rw [pyGet_append_right _ _ _ hl]
    rw [pyGet, if_pos rfl]
    rfl

theorem pairMem_stInsert_other (q q' : Str × Str) (pkgs : PackagesMap)
    (st : GitRepos) (hne : q' ≠ q) :
    pairMem q' (stInsert q pkgs st) = pairMem q' st := by
  rw [pairMem_eq, pairMem_eq, stInsert]
  by_cases h1 : q'.1 = q.1
  · -- same repository, different commit
    have h2 : q'.2 ≠ q.2 := by
      intro h2
      exact hne (Prod.ext h1 h2)
    simp only [h1, pyGet_pySet_same, Option.map_some', Option.getD_some]
    by_cases hp : (pyGet q.1 st).isSome
    · rw [if_pos hp]
      obtain ⟨commits, hc⟩ := Option.isSome_iff_exists.mp hp
      rw [hc]
      simp only [Option.getD_some, Option.map_some']
      cases hl : pyGet q'.2 commits with
      | some v =>
        rw [pyGet_append_left _ _ _ _ hl]
      | none =>
        rw [pyGet_append_right _ _ _ hl]
        rw [pyGet, if_neg (fun hh => h2 hh.symm)]
        rfl
    · rw [if_neg hp]
      rw [Option.not_isSome_iff_eq_none] at hp
      rw [pyGet_append_right _ _ _ hp]
      rw [hp, pyGet, if_pos rfl]
      simp only [Option.getD_some, Option.getD_none, Option.map_some']
      rw [pyGet_append_right _ _ _ (by rfl)]
      rw [pyGet, if_neg (fun hh => h2 hh.symm)]
      rfl
  · -- different repository
    rw [pyGet_pySet_ne _ _ _ h1]
    by_cases hp : (pyGet q.1 st).isSome
    · rw [if_pos hp]
    · rw [if_neg hp]
      rw [Option.not_isSome_iff_eq_none] at hp
      cases hl : pyGet q'.1 st with
      | some v => rw [pyGet_append_left _ _ _ _ hl]
      | none =>
        rw [pyGet_append_right _ _ _ hl]
        rw [pyGet, if_neg (fun hh => h1 hh.symm)]
        rfl

theorem pyGet_mem {α : Type} (k : Str) (v : α) : ∀ (d : List (Str × α)),
    pyGet k d = some v → (k, v) ∈ d := by
  intro d
  induction d with
  | nil => intro h; cases h
  | cons x rest ih =>
    obtain ⟨k', v'⟩ := x
    intro h
    by_cases hk : k' = k
    · subst hk
      rw [pyGet, if_pos rfl] at h
      cases h
      exact List.mem_cons_self _ _
    · rw [pyGet, if_neg hk] at h
      exact List.mem_cons_of_mem _ (ih h)

theorem stWF_stInsert (q : Str × Str) (pkgs : PackagesMap) (st : GitRepos)
    (hWF : stWF st) (hmem : pairMem q st = false) :
    stWF (stInsert q pkgs st) := by
  obtain ⟨hkeys, hcommits⟩ := hWF
  rw [stInsert]
  by_cases hp : (pyGet q.1 st).isSome
  · simp only [if_pos hp]
    obtain ⟨commits, hc⟩ := Option.isSome_iff_exists.mp hp
    have hq2 : pyGet q.2 commits = none := by
      rw [pairMem_eq, hc] at hmem
      simpa using hmem
    constructor
    · rw [pySet_map_fst_present _ _ _ hp]
      exact hkeys
    · intro e he
      rcases pySet_mem _ _ _ e he with he1 | he1
      · subst he1
        rw [hc]
        simp only [Option.getD_some, List.map_append]
        rw [List.nodup_append]
        refine ⟨hcommits _ (pyGet_mem _ _ _ hc), by simp, ?_⟩
        intro a ha
        simp only [List.map_cons, List.map_nil, List.mem_singleton]
        intro hb
        subst hb
        exact absurd ((pyGet_none_iff _ _).mp hq2) (fun hno => hno ha)
      · exact hcommits _ he1
  · simp only [if_neg hp]
    rw [Option.not_isSome_iff_eq_none] at hp
    have hget1 : pyGet q.1 (st ++ [(q.1, [])]) = some [] := by
      rw [pyGet_append_right _ _ _ hp, pyGet, if_pos rfl]
    constructor
    · rw [pySet_map_fst_present _ _ _ (by rw [hget1]; rfl)]
      simp only [List.map_append, List.map_cons, List.map_nil]
      rw [List.nodup_append]
      exact ⟨hkeys, by simp, by
        intro a ha
        simp only [List.mem_singleton]
        intro hb
        subst hb
        exact (pyGet_none_iff _ _).mp hp ha⟩
    · intro e he
      rcases pySet_mem _ _ _ e he with he1 | he1
      · subst he1
        rw [hget1]
        simp
      · rcases List.mem_append.mp he1 with he2 | he2
        · exact hcommits _ he2
        · simp only [List.mem_singleton] at he2
          subst he2
          simp

theorem ggps_step (scan : ScanOracle) (p : LockPackage) (st : GitRepos)
    (srcs : List FlatpakSource) (ven : VendorEntries) (st' : GitRepos)
    (scans : List (Str × Str))
    (h : get_git_package_sources scan p st = .ok (srcs, ven, st', scans)) :
    ∃ s pr c, p.source = some s ∧ pyUrlparse s = .ok pr ∧ pr.fragment ≠ [] ∧
      canonical_url s = .ok c ∧
      (∀ u cm d, FlatpakSource.git u cm d ∉ srcs) ∧
      ((pairMem (geturl c, pr.fragment) st = true ∧ st' = st ∧ scans = []) ∨
       (pairMem (geturl c, pr.fragment) st = false ∧
        scans = [(geturl c, pr.fragment)] ∧
        scan (geturl c) pr.fragment ≠ [] ∧
        st' = stInsert (geturl c, pr.fragment) (scan (geturl c) pr.fragment) st)) := by
  cases hs : p.source with
  | none =>
    rw [get_git_package_sources.eq_def] at h
    simp only [hs] at h
    cases h
  | some s =>
    rw [get_git_package_sources.eq_def] at h
    simp only [hs, exceptPure_bind] at h
    cases hpr : pyUrlparse s with
    | error e => rw [hpr, exceptBind_error] at h; cases h
    | ok pr =>
      rw [hpr, exceptBind_ok] at h
      by_cases hfr : pr.fragment = []
      · rw [if_pos hfr] at h; cases h
      · rw [if_neg hfr] at h
        cases hc : canonical_url s with
        | error e => rw [hc, exceptBind_error] at h; cases h
        | ok c =>
          rw [hc, exceptBind_ok] at h
          by_cases hmem : pairMem (geturl c, pr.fragment) st = true
          · -- memo hit
            have hp1 : (pyGet (geturl c) st).isSome := by
              rw [pairMem_eq] at hmem
              cases hx : pyGet (geturl c) st with
              | none => rw [hx] at hmem; simp at hmem
              | some v => rfl
            rw [if_pos hp1] at h
            have hcond : (pyGet pr.fragment ((pyGet (geturl c) st).getD [])).isSome = true := by
              rw [pairMem_eq] at hmem
              obtain ⟨v, hv⟩ := Option.isSome_iff_exists.mp hp1
              rw [hv] at hmem ⊢
              simpa using hmem
            rw [if_pos hcond] at h
            cases hv : vendorAnnotation
                [("git".data, geturl c), ("replace-with".data, VENDORED_SOURCES)]
                (pyParseQs pr.query) with
            | error e => rw [hv, exceptBind_error] at h; cases h
            | ok entryv =>
              rw [hv, exceptBind_ok] at h
              cases hg : pyGet p.name
                  ((pyGet pr.fragment ((pyGet (geturl c) st).getD [])).getD []) with
              | none => rw [hg] at h; cases h
              | some g =>
                simp only [hg] at h
                cases hrn : git_repo_name (geturl c) pr.fragment with
                | error e => rw [hrn, exceptBind_error] at h; cases h
                | ok repoName =>
                  rw [hrn, exceptBind_ok] at h
                  cases hno : g.normalized with
                  | error e => rw [hno, exceptBind_error] at h; cases h
                  | ok norm =>
                    rw [hno, exceptBind_ok, exceptPure_eq_ok] at h
                    injection h with h1
                    injection h1 with hsrcs h2
                    injection h2 with hven h3
                    injection h3 with hst hscans
                    refine ⟨s, pr, c, rfl, hpr, hfr, hc, ?_, ?_⟩
                    · intro u cm d hmemx
                      rw [← hsrcs] at hmemx
                      simp at hmemx
                    · exact Or.inl ⟨hmem, hst.symm, hscans.symm⟩
          · -- memo miss
            have hmem' : pairMem (geturl c, pr.fragment) st = false :=
              Bool.eq_false_iff.mpr hmem
            by_cases hp1 : (pyGet (geturl c) st).isSome
            · -- repository entry present, commit absent
              rw [if_pos hp1] at h
              have hcond : (pyGet pr.fragment ((pyGet (geturl c) st).getD [])).isSome = false := by
                rw [pairMem_eq] at hmem'
                obtain ⟨v, hvv⟩ := Option.isSome_iff_exists.mp hp1
                rw [hvv] at hmem' ⊢
                simpa using hmem'
              rw [hcond] at h
              simp only [Bool.false_eq_true, if_false] at h
              by_cases hpk : scan (geturl c) pr.fragment = []
              · rw [if_pos hpk] at h
                rw [exceptBind_error] at h
                cases h
              · rw [if_neg hpk] at h
                cases hv : vendorAnnotation
                    [("git".data, geturl c), ("replace-with".data, VENDORED_SOURCES)]
                    (pyParseQs pr.query) with
                | error e => rw [hv, exceptBind_error] at h; cases h
                | ok entryv =>
                  rw [hv, exceptBind_ok] at h
                  cases hg : pyGet p.name
                      ((pyGet pr.fragment
                        ((pyGet (geturl c)
                          (pySet (geturl c)
                            (((pyGet (geturl c) st).getD []) ++
                              [(pr.fragment, scan (geturl c) pr.fragment)]) st)).getD
                          [])).getD []) with
                  | none => rw [hg] at h; cases h
                  | some g =>
                    simp only [hg] at h
                    cases hrn : git_repo_name (geturl c) pr.fragment with
                    | error e => rw [hrn, exceptBind_error] at h; cases h
                    | ok repoName =>
                      rw [hrn, exceptBind_ok] at h
                      cases hno : g.normalized with
                      | error e => rw [hno, exceptBind_error] at h; cases h
                      | ok norm =>
                        rw [hno, exceptBind_ok, exceptPure_eq_ok] at h
                        injection h with h1
                        injection h1 with hsrcs h2
                        injection h2 with hven h3
                        injection h3 with hst hscans
                        refine ⟨s, pr, c, rfl, hpr, hfr, hc, ?_, ?_⟩
                        · intro u cm d hmemx
                          rw [← hsrcs] at hmemx
                          simp at hmemx
                        · refine Or.inr ⟨hmem', hscans.symm, hpk, ?_⟩
                          rw [← hst, stInsert]
                          simp only [if_pos hp1]
            · -- repository entry absent
              rw [if_neg hp1] at h
              have hget1 : pyGet (geturl c) (st ++ [(geturl c, [])]) = some [] := by
                rw [Option.not_isSome_iff_eq_none] at hp1
                rw [pyGet_append_right _ _ _ hp1, pyGet, if_pos rfl]
              have hcond : (pyGet pr.fragment
                  ((pyGet (geturl c) (st ++ [(geturl c, [])])).getD [])).isSome = false := by
                rw [hget1]
                rfl
              rw [hcond] at h
              simp only [Bool.false_eq_true, if_false] at h
              by_cases hpk : scan (geturl c) pr.fragment = []
              · rw [if_pos hpk] at h
                rw [exceptBind_error] at h
                cases h
              · rw [if_neg hpk] at h
                cases hv : vendorAnnotation
                    [("git".data, geturl c), ("replace-with".data, VENDORED_SOURCES)]
                    (pyParseQs pr.query) with
                | error e => rw [hv, exceptBind_error] at h; cases h
                | ok entryv =>
                  rw [hv, exceptBind_ok] at h
                  cases hg : pyGet p.name
                      ((pyGet pr.fragment
                        ((pyGet (geturl c)
                          (pySet (geturl c)
                            (((pyGet (geturl c) (st ++ [(geturl c, [])])).getD []) ++
                              [(pr.fragment, scan (geturl c) pr.fragment)])
                            (st ++ [(geturl c, [])]))).getD
                          [])).getD []) with
                  | none => rw [hg] at h; cases h
                  | some g =>
                    simp only [hg] at h
                    cases hrn : git_repo_name (geturl c) pr.fragment with
                    | error e => rw [hrn, exceptBind_error] at h; cases h
                    | ok repoName =>
                      rw [hrn, exceptBind_ok] at h
                      cases hno : g.normalized with
                      | error e => rw [hno, exceptBind_error] at h; cases h
                      | ok norm =>
                        rw [hno, exceptBind_ok, exceptPure_eq_ok] at h
                        injection h with h1
                        injection h1 with hsrcs h2
                        injection h2 with hven h3
                        injection h3 with hst hscans
                        refine ⟨s, pr, c, rfl, hpr, hfr, hc, ?_, ?_⟩
                        · intro u cm d hmemx
                          rw [← hsrcs] at hmemx
                          simp at hmemx
                        · refine Or.inr ⟨hmem', hscans.symm, hpk, ?_⟩
                          rw [← hst, stInsert]
                          simp only [if_neg hp1]

theorem gps_step (scan : ScanOracle) (p : LockPackage) (lock : CargoLock)
    (st : GitRepos) (res : Option (List FlatpakSource × VendorEntries))
    (st' : GitRepos) (scans : List (Str × Str))
    (h : get_package_sources scan p lock st = .ok (res, st', scans)) :
    ((st' = st ∧ scans = []) ∨
     (∃ q pkgs, pairMem q st = false ∧ pkgs ≠ [] ∧ scans = [q] ∧
       st' = stInsert q pkgs st)) ∧
    (∀ srcs ven, res = some (srcs, ven) → ∀ u cm d, FlatpakSource.git u cm d ∉ srcs) ∧
    (∀ s pr c, p.source = some s → "git+".data.isPrefixOf s = true →
      pyUrlparse s = .ok pr → canonical_url s = .ok c →
      pairMem (geturl c, pr.fragment) st' = true) := by
  cases hs : p.source with
  | none =>
    rw [get_package_sources.eq_def] at h
    simp only [hs] at h
    injection h with h1
    injection h1 with hres h2
    injection h2 with hst hscans
    refine ⟨Or.inl ⟨hst.symm, hscans.symm⟩, ?_, ?_⟩
    · intro srcs ven' hr
      rw [← hres] at hr
      cases hr
    · intro s pr c hps
      cases hps
  | some s =>
    rw [get_package_sources.eq_def] at h
    simp only [hs] at h
    by_cases hgit : "git+".data.isPrefixOf s = true
    · rw [if_pos hgit] at h
      cases hg : get_git_package_sources scan p st with
      | error e => rw [hg, exceptMap_error] at h; cases h
      | ok r =>
        obtain ⟨srcs0, ven0, st0, sc0⟩ := r
        rw [hg, exceptMap_ok] at h
        injection h with h1
        injection h1 with hres0 h2
        injection h2 with hst0x hscans0x
        have hres : some (srcs0, ven0) = res := hres0
        have hst : st0 = st' := hst0x
        have hscans : sc0 = scans := hscans0x
        obtain ⟨s1, pr1, c1, hs1, hpr1, hfr1, hc1, hnogit, hbr⟩ :=
          ggps_step scan p st srcs0 ven0 st0 sc0 hg
        have hss : s1 = s := by
          rw [hs] at hs1
          injection hs1 with hx
          exact hx.symm
        subst hss
        constructor
        · rcases hbr with ⟨hmem, hst0, hsc0⟩ | ⟨hmem, hsc0, hpk, hst0⟩
          · exact Or.inl ⟨by rw [← hst, hst0], by rw [← hscans, hsc0]⟩
          · exact Or.inr ⟨(geturl c1, pr1.fragment), _, hmem, hpk,
              by rw [← hscans, hsc0], by rw [← hst, hst0]⟩
        constructor
        · intro srcs ven' hr
          rw [← hres] at hr
          injection hr with hr1
          have hsr : srcs0 = srcs := congrArg Prod.fst hr1
          intro u cm d hmm
          rw [← hsr] at hmm
          exact hnogit u cm d hmm
        · intro s' pr c hps' hgit' hpr hc
          injection hps' with hx
          subst hx
          rw [hpr1] at hpr
          injection hpr with hprx
          subst hprx
          rw [hc1] at hc
          injection hc with hcx
          subst hcx
          rw [← hst]
          rcases hbr with ⟨hmem, hst0, _⟩ | ⟨_, _, _, hst0⟩
          · rw [hst0]; exact hmem
          · rw [hst0]; exact pairMem_stInsert_same _ _ _
    · rw [if_neg hgit] at h
      have hreg : ∀ (c? : Option Str),
          (match c? with
            | none => (Except.ok (none, st, []) :
                Except PyErr (Option (List FlatpakSource × VendorEntries) ×
                  GitRepos × List (Str × Str)))
            | some checksum =>
              Except.ok (some
                ([FlatpakSource.archive ( CRATES_IO ++ "/".data ++ p.name ++ "/".data ++
                    p.name ++ "-".data ++ p.version ++ ".crate".data) checksum
                    (CARGO_CRATES ++ "/".data ++ p.name ++ "-".data ++ p.version),
                  FlatpakSource.inline (jsonChecksum (some checksum))
                    (CARGO_CRATES ++ "/".data ++ p.name ++ "-".data ++ p.version)
                    ".cargo-checksum.json".data],
                 [("crates-io".data, [("replace-with".data, VENDORED_SOURCES)])]),
                st, [])) = .ok (res, st', scans) →
          ((st' = st ∧ scans = []) ∨
           (∃ q pkgs, pairMem q st = false ∧ pkgs ≠ [] ∧ scans = [q] ∧
             st' = stInsert q pkgs st)) ∧
          (∀ srcs ven, res = some (srcs, ven) →
            ∀ u cm d, FlatpakSource.git u cm d ∉ srcs) ∧
          (∀ s' pr c, p.source = some s' → "git+".data.isPrefixOf s' = true →
            pyUrlparse s' = .ok pr → canonical_url s' = .ok c →
            pairMem (geturl c, pr.fragment) st' = true) := by
        intro c? hh
        cases c? with
        | none =>
          injection hh with h1
          injection h1 with hres h2
          injection h2 with hst hscans
          refine ⟨Or.inl ⟨hst.symm, hscans.symm⟩, ?_, ?_⟩
          · intro srcs ven' hr
            rw [← hres] at hr
            cases hr
          · intro s' pr c hps' hgit'
            rw [hs] at hps'
            injection hps' with hx
            subst hx
            exact absurd hgit' hgit
        | some checksum =>
          injection hh with h1
          injection h1 with hres h2
          injection h2 with hst hscans
          refine ⟨Or.inl ⟨hst.symm, hscans.symm⟩, ?_, ?_⟩
          · intro srcs ven' hr
            rw [← hres] at hr
            injection hr with hr1
            have hsr := congrArg Prod.fst hr1
            simp only [] at hsr
            intro u cm d hmm
            rw [← hsr] at hmm
            simp at hmm
          · intro s' pr c hps' hgit'
            rw [hs] at hps'
            injection hps' with hx
            subst hx
            exact absurd hgit' hgit
      have hout := hreg _ h
      rw [hs] at hout
      exact hout

theorem logCount_append_single (q q' : Str × Str) (log : List (Str × Str)) :
    logCount q (log ++ [q']) = logCount q log + (if q' = q then 1 else 0) := by
  by_cases h : q' = q <;>
    simp [logCount, List.countP_append, List.countP_cons, h, beq_iff_eq]

theorem genPkgLoop_master (scan : ScanOracle) (lock : CargoLock) :
    ∀ (pkgs : List LockPackage) (st : GitRepos) (acc : List FlatpakSource)
      (ven : VendorEntries) (log : List (Str × Str)) (stF : GitRepos)
      (accF : List FlatpakSource) (venF : VendorEntries) (logF : List (Str × Str)),
    genPkgLoop scan lock pkgs st acc ven log = .ok (stF, accF, venF, logF) →
    stWF st →
    (∀ q, logCount q log = if pairMem q st then 1 else 0) →
    (∀ u cm d, FlatpakSource.git u cm d ∉ acc) →
    stWF stF ∧
    (∀ q, logCount q logF = if pairMem q stF then 1 else 0) ∧
    (∀ u cm d, FlatpakSource.git u cm d ∉ accF) ∧
    (∀ q, pairMem q st = true → pairMem q stF = true) ∧
    (∀ p ∈ pkgs, ∀ s pr c, p.source = some s → "git+".data.isPrefixOf s = true →
      pyUrlparse s = .ok pr → canonical_url s = .ok c →
      pairMem (geturl c, pr.fragment) stF = true) := by
  intro pkgs
  induction pkgs with
  | nil =>
    intro st acc ven log stF accF venF logF h hWF hInv hacc
    rw [genPkgLoop] at h
    injection h with h1
    injection h1 with hst h2
    injection h2 with hacc2 h3
    injection h3 with hven hlog
    subst hst hacc2 hlog
    exact ⟨hWF, hInv, hacc, fun q hq => hq, fun p hp => absurd hp (List.not_mem_nil p)⟩
  | cons p rest ih =>
    intro st acc ven log stF accF venF logF h hWF hInv hacc
    rw [genPkgLoop] at h
    cases hg : get_package_sources scan p lock st with
    | error e => rw [hg, exceptBind_error] at h; cases h
    | ok r =>
      obtain ⟨res, st1, sc1⟩ := r
      rw [hg, exceptBind_ok] at h
      obtain ⟨hbr, hng, hpres⟩ := gps_step scan p lock st res st1 sc1 hg
      -- facts common to both memo branches
      have hWF1 : stWF st1 := by
        rcases hbr with ⟨hst1, _⟩ | ⟨q0, pkgs0, hm0, _, _, hst1⟩
        · rw [hst1]; exact hWF
        · rw [hst1]; exact stWF_stInsert _ _ _ hWF hm0
      have hInv1 : ∀ q, logCount q (log ++ sc1) = if pairMem q st1 then 1 else 0 := by
        rcases hbr with ⟨hst1, hsc1⟩ | ⟨q0, pkgs0, hm0, _, hsc1, hst1⟩
        · subst hst1 hsc1
          simpa using hInv
        · subst hsc1 hst1
          intro q
          rw [logCount_append_single]
          by_cases hq : q0 = q
          · subst hq
            rw [pairMem_stInsert_same, hInv q0, hm0]
            simp
          · rw [pairMem_stInsert_other _ _ _ _ (fun hh => hq hh.symm), hInv q]
            simp [hq]
      have hmono1 : ∀ q, pairMem q st = true → pairMem q st1 = true := by
        rcases hbr with ⟨hst1, _⟩ | ⟨q0, pkgs0, hm0, _, _, hst1⟩
        · intro q hq; rw [hst1]; exact hq
        · intro q hq
          subst hst1
          by_cases hqq : q = q0
          · subst hqq; exact pairMem_stInsert_same _ _ _
          · rw [pairMem_stInsert_other _ _ _ _ hqq]; exact hq
      cases res with
      | none =>
        have hres := ih st1 acc ven (log ++ sc1) stF accF venF logF h hWF1 hInv1 hacc
        obtain ⟨w1, w2, w3, w4, w5⟩ := hres
        refine ⟨w1, w2, w3, fun q hq => w4 q (hmono1 q hq), ?_⟩
        intro p' hp' s pr c hsrc hgit hpr hc
        rcases List.mem_cons.mp hp' with hp1 | hp1
        · subst hp1
          exact w4 _ (hpres s pr c hsrc hgit hpr hc)
        · exact w5 p' hp1 s pr c hsrc hgit hpr hc
      | some rv =>
        obtain ⟨srcs, ven'⟩ := rv
        have hacc1 : ∀ u cm d, FlatpakSource.git u cm d ∉ acc ++ srcs := by
          intro u cm d hmm
          rcases List.mem_append.mp hmm with hmm | hmm
          · exact hacc u cm d hmm
          · exact hng srcs ven' rfl u cm d hmm
        have hres := ih st1 (acc ++ srcs) (pyUpdate ven ven') (log ++ sc1)
          stF accF venF logF h hWF1 hInv1 hacc1
        obtain ⟨w1, w2, w3, w4, w5⟩ := hres
        refine ⟨w1, w2, w3, fun q hq => w4 q (hmono1 q hq), ?_⟩
        intro p' hp' s pr c hsrc hgit hpr hc
        rcases List.mem_cons.mp hp' with hp1 | hp1
        · subst hp1
          exact w4 _ (hpres s pr c hsrc hgit hpr hc)
        · exact w5 p' hp1 s pr c hsrc hgit hpr hc

theorem genCommitLoop_count (sha : Str → Str) (u : Str) :
    ∀ (commits : List (Str × PackagesMap)) (srcs : List FlatpakSource),
    genCommitLoop sha false u commits = .ok srcs →
    (commits.map Prod.fst).Nodup →
    ∀ u' c, srcs.countP (isCloneOf u' c) =
      if u = u' ∧ (pyGet c commits).isSome then 1 else 0 := by
  intro commits
  induction commits with
  | nil =>
    intro srcs h hnd u' c
    rw [genCommitLoop] at h
    injection h with h1
    subst h1
    simp [pyGet]
  | cons e rest ih =>
    obtain ⟨commit, m⟩ := e
    intro srcs h hnd u' c
    rw [genCommitLoop] at h
    cases hg : get_git_repo_sources sha u commit false with
    | error e' => rw [hg, exceptBind_error] at h; cases h
    | ok s =>
      rw [hg, exceptBind_ok] at h
      cases hr : genCommitLoop sha false u rest with
      | error e' => rw [hr, exceptBind_error] at h; cases h
      | ok r =>
        rw [hr, exceptBind_ok] at h
        injection h with h1
        subst h1
        -- invert the single fetch
        rw [get_git_repo_sources] at hg
        cases hn : git_repo_name u commit with
        | error e' => rw [hn, exceptBind_error] at hg; cases hg
        | ok name =>
          rw [hn, exceptBind_ok, if_neg (Bool.false_ne_true)] at hg
          injection hg with hg1
          subst hg1
          have hnd1 : commit ∉ rest.map Prod.fst := by
            simp only [List.map_cons, List.nodup_cons] at hnd
            exact hnd.1
          have hnd2 : (rest.map Prod.fst).Nodup := by
            simp only [List.map_cons, List.nodup_cons] at hnd
            exact hnd.2
          rw [List.countP_append, ih r hr hnd2 u' c]
          by_cases hcc : commit = c
          · subst hcc
            have hget : pyGet commit rest = none := (pyGet_none_iff _ _).mpr hnd1
            rw [pyGet, if_pos rfl]
            simp only [hget, Option.isSome_none, Option.isSome_some, and_true,
              and_false, if_false]
            by_cases huu : u = u'
            · subst huu
              simp [List.countP_cons, isCloneOf]
            · simp [List.countP_cons, isCloneOf, huu]
          · rw [pyGet, if_neg hcc]
            have hsingle : List.countP (isCloneOf u' c)
                [FlatpakSource.git u commit (GIT_CACHE ++ "/".data ++ name)] = 0 := by
              simp [List.countP_cons, isCloneOf, hcc]
            rw [hsingle]
            simp

theorem genRepoLoop_count (sha : Str → Str) :
    ∀ (st : GitRepos) (srcs : List FlatpakSource),
    genRepoLoop sha false st = .ok srcs → stWF st →
    ∀ u c, srcs.countP (isCloneOf u c) = if pairMem (u, c) st then 1 else 0 := by
  intro st
  induction st with
  | nil =>
    intro srcs h hWF u c
    rw [genRepoLoop] at h
    injection h with h1
    subst h1
    simp [pairMem, pyGet]
  | cons e rest ih =>
    obtain ⟨u', commits⟩ := e
    intro srcs h hWF u c
    rw [genRepoLoop] at h
    cases hc : genCommitLoop sha false u' commits with
    | error e' => rw [hc, exceptBind_error] at h; cases h
    | ok here =>
      rw [hc, exceptBind_ok] at h
      cases hr : genRepoLoop sha false rest with
      | error e' => rw [hr, exceptBind_error] at h; cases h
      | ok more =>
        rw [hr, exceptBind_ok] at h
        injection h with h1
        subst h1
        obtain ⟨hnd, hall⟩ := hWF
        simp only [List.map_cons, List.nodup_cons] at hnd
        have hWFrest : stWF rest := ⟨hnd.2, fun e he => hall e (List.mem_cons_of_mem _ he)⟩
        have hcommitsNd : (commits.map Prod.fst).Nodup :=
          hall (u', commits) (List.mem_cons_self _ _)
        rw [List.countP_append, genCommitLoop_count sha u' commits here hc hcommitsNd u c,
          ih more hr hWFrest u c]
        by_cases huu : u' = u
        · subst huu
          have hnone : pyGet u' rest = none := (pyGet_none_iff _ _).mpr hnd.1
          have hpmr : pairMem (u', c) rest = false := by
            rw [pairMem_eq, hnone]; rfl
          rw [hpmr]
          rw [pairMem_eq, pyGet, if_pos rfl]
          simp
        · have hpm : pairMem (u, c) ((u', commits) :: rest) = pairMem (u, c) rest := by
            rw [pairMem_eq, pairMem_eq, pyGet, if_neg huu]
          rw [hpm]
          simp [huu]

theorem countP_isCloneOf_zero (u c : Str) (acc : List FlatpakSource)
    (h : ∀ u' c' d, FlatpakSource.git u' c' d ∉ acc) :
    acc.countP (isCloneOf u c) = 0 := by
  rw [List.countP_eq_zero]
  intro x hx hcl
  cases x with
  | archive a b d => simp [isCloneOf] at hcl
  | git url cm d => exact h url cm d hx
  | shell cmds => simp [isCloneOf] at hcl
  | inline a b d => simp [isCloneOf] at hcl
  | inlineToml a b d => simp [isCloneOf] at hcl

theorem generate_sources_inv (scan : ScanOracle) (sha : Str → Str)
    (lock : CargoLock) (tb : Bool) (srcs : List FlatpakSource)
    (log : List (Str × Str))
    (h : generate_sources scan sha lock tb = .ok (srcs, log)) :
    ∃ repos pkgSrcs ven scans cloneSrcs,
      genPkgLoop scan lock lock.package [] []
        [(VENDORED_SOURCES, [("directory".data, CARGO_CRATES)])] [] =
        .ok (repos, pkgSrcs, ven, scans) ∧
      genRepoLoop sha tb repos = .ok cloneSrcs ∧
      srcs = cloneSrcs ++ pkgSrcs ++
        [.inlineToml (vendoredToml ven) CARGO_HOME "config".data] ∧
      log = scans := by
  rw [generate_sources] at h
  simp only [] at h
  cases hpk : genPkgLoop scan lock lock.package [] []
      [(VENDORED_SOURCES, [("directory".data, CARGO_CRATES)])] [] with
  | error e => rw [hpk, exceptBind_error] at h; cases h
  | ok quad =>
    obtain ⟨repos, pkgSrcs, ven, scans⟩ := quad
    rw [hpk, exceptBind_ok] at h
    cases hcl : genRepoLoop sha tb repos with
    | error e => rw [hcl, exceptBind_error] at h; cases h
    | ok cloneSrcs =>
      rw [hcl, exceptBind_ok] at h
      injection h with h1
      injection h1 with h2 h3
      exact ⟨repos, pkgSrcs, ven, scans, cloneSrcs, rfl, hcl, h2.symm, h3.symm⟩


/-- The `(repository URL, commit)` pairs recorded in the `git_repos` memo, in
the iteration order of the clone-emission loops of `generate_sources`. -/
def memoPairs : GitRepos → List (Str × Str)
  | [] => []
  | (u, commits) :: rest => commits.map (fun cm => (u, cm.1)) ++ memoPairs rest

/-- The fetch plan over a list of `(repository URL, commit)` pairs: one
`get_git_repo_sources` call — a git clone operation or a tarball archive
operation, by mode — per pair, concatenated in order. -/
def fetchOps (sha : Str → Str) (tb : Bool) : List (Str × Str) →
    Except PyErr (List FlatpakSource)
  | [] => .ok []
  | q :: rest => do
    let s ← get_git_repo_sources sha q.1 q.2 tb
    let r ← fetchOps sha tb rest
    .ok (s ++ r)

theorem fetchOps_append (sha : Str → Str) (tb : Bool) :
    ∀ l1 l2, fetchOps sha tb (l1 ++ l2) =
      (fetchOps sha tb l1 >>= fun a =>
        fetchOps sha tb l2 >>= fun b => .ok (a ++ b)) := by
  intro l1
  induction l1 with
  | nil =>
    intro l2
    simp only [List.nil_append, fetchOps, exceptBind_ok]
    cases h : fetchOps sha tb l2 with
    | error e => rw [exceptBind_error]
    | ok b => rw [exceptBind_ok]
  | cons q rest ih =>
    intro l2
    simp only [List.cons_append, fetchOps]
    cases hs : get_git_repo_sources sha q.1 q.2 tb with
    | error e => simp
    | ok s =>
      simp only [exceptBind_ok, List.append_eq]
      rw [ih l2]
      cases hr : fetchOps sha tb rest with
      | error e => simp
      | ok r =>
        simp only [exceptBind_ok]
        cases h2 : fetchOps sha tb l2 with
        | error e => simp
        | ok b => simp [List.append_assoc]

theorem genCommitLoop_eq_fetchOps (sha : Str → Str) (tb : Bool) (u : Str) :
    ∀ commits, genCommitLoop sha tb u commits =
      fetchOps sha tb (commits.map (fun cm => (u, cm.1))) := by
  intro commits
  induction commits with
  | nil => rfl
  | cons cm rest ih =>
    obtain ⟨commit, m⟩ := cm
    rw [genCommitLoop, List.map_cons, fetchOps, ih]

theorem genRepoLoop_eq_fetchOps (sha : Str → Str) (tb : Bool) :
    ∀ st, genRepoLoop sha tb st = fetchOps sha tb (memoPairs st) := by
  intro st
  induction st with
  | nil => rfl
  | cons e rest ih =>
    obtain ⟨u, commits⟩ := e
    rw [genRepoLoop, memoPairs, fetchOps_append, genCommitLoop_eq_fetchOps, ih]

theorem countP_pairs_map (u : Str) (q : Str × Str) :
    ∀ (commits : List (Str × PackagesMap)), (commits.map Prod.fst).Nodup →
    List.countP (fun x => x == q) (commits.map (fun cm => (u, cm.1))) =
      if u = q.1 ∧ (pyGet q.2 commits).isSome then 1 else 0 := by
  intro commits
  induction commits with
  | nil =>
    intro _
    simp [pyGet]
  | cons cm rest ih =>
    obtain ⟨commit, m⟩ := cm
    intro hnd
    simp only [List.map_cons, List.nodup_cons] at hnd
    rw [List.map_cons, List.countP_cons, ih hnd.2]
    by_cases hcc : commit = q.2
    · subst hcc
      have hget : pyGet q.2 rest = none := (pyGet_none_iff _ _).mpr hnd.1
      rw [pyGet, if_pos rfl]
      simp only [hget, Option.isSome_none, Option.isSome_some, and_false, if_false]
      by_cases huu : u = q.1
      · have hbeq : ((u, q.2) == q) = true := by
          rw [beq_iff_eq]
          exact Prod.ext huu rfl
        simp [hbeq, huu]
      · have hbeq : ((u, q.2) == q) = false := by
          rw [beq_eq_false_iff_ne]
          intro he
          exact huu (congrArg Prod.fst he)
        simp [hbeq, huu]
    · rw [pyGet, if_neg hcc]
      have hbeq : ((u, commit) == q) = false := by
        rw [beq_eq_false_iff_ne]
        intro he
        exact hcc (congrArg Prod.snd he)
      simp [hbeq]

theorem memoPairs_count :
    ∀ (st : GitRepos), stWF st → ∀ q,
    List.countP (fun x => x == q) (memoPairs st) = if pairMem q st then 1 else 0 := by
  intro st
  induction st with
  | nil =>
    intro _ q
    simp [memoPairs, pairMem, pyGet]
  | cons e rest ih =>
    obtain ⟨u, commits⟩ := e
    intro hWF q
    obtain ⟨hnd, hall⟩ := hWF
    simp only [List.map_cons, List.nodup_cons] at hnd
    have hWFrest : stWF rest := ⟨hnd.2, fun e he => hall e (List.mem_cons_of_mem _ he)⟩
    have hcommitsNd : (commits.map Prod.fst).Nodup :=
      hall (u, commits) (List.mem_cons_self _ _)
    rw [memoPairs, List.countP_append, countP_pairs_map u q commits hcommitsNd,
      ih hWFrest q]
    by_cases huu : u = q.1
    · subst huu
      have hnone : pyGet q.1 rest = none := (pyGet_none_iff _ _).mpr hnd.1
      have hpmr : pairMem q rest = false := by
        rw [pairMem_eq, hnone]
        rfl
      rw [hpmr]
      rw [pairMem_eq, pyGet, if_pos rfl]
      simp
    · have hpm : pairMem q ((u, commits) :: rest) = pairMem q rest := by
        rw [pairMem_eq, pairMem_eq, pyGet, if_neg huu]
      rw [hpm]
      simp [huu]

/-- C1: in any successful `generate_sources` run — clone or tarball mode —
any two lock entries whose `git+` sources canonicalize to the same
repository URL and pin the same commit give rise to exactly one fetch for
that `(repository, commit)` pair: the emitted fetch operations are the
concatenation of one `get_git_repo_sources` result (one clone operation, or
one tarball archive operation) per recorded memo pair, the shared pair
occurs exactly once among those pairs, and the manifest scan is logged
exactly once — not once per package.  In clone mode, where the clone
operation names its pair, the output additionally contains exactly one
clone operation for the pair. -/
theorem C1_shared_git_source_single_fetch
    (scan : ScanOracle) (sha : Str → Str) (lock : CargoLock) (tb : Bool)
    (srcs : List FlatpakSource) (log : List (Str × Str))
    (hrun : generate_sources scan sha lock tb = .ok (srcs, log))
    (p1 p2 : LockPackage) (hp1 : p1 ∈ lock.package) (hp2 : p2 ∈ lock.package)
    (s1 s2 : Str) (hs1 : p1.source = some s1) (hs2 : p2.source = some s2)
    (hg1 : "git+".data.isPrefixOf s1 = true)
    (hg2 : "git+".data.isPrefixOf s2 = true)
    (pr1 pr2 : ParseResult) (hpr1 : pyUrlparse s1 = .ok pr1)
    (hpr2 : pyUrlparse s2 = .ok pr2)
    (c1 c2 : ParseResult) (hc1 : canonical_url s1 = .ok c1)
    (hc2 : canonical_url s2 = .ok c2)
    (hurl : geturl c1 = geturl c2) (hfrag : pr1.fragment = pr2.fragment) :
    ∃ repos pkgSrcs ven cloneSrcs,
      srcs = cloneSrcs ++ pkgSrcs ++
        [.inlineToml (vendoredToml ven) CARGO_HOME "config".data] ∧
      fetchOps sha tb (memoPairs repos) = .ok cloneSrcs ∧
      List.countP (fun x => x == (geturl c1, pr1.fragment)) (memoPairs repos) = 1 ∧
      logCount (geturl c1, pr1.fragment) log = 1 ∧
      (tb = false → srcs.countP (isCloneOf (geturl c1) pr1.fragment) = 1) := by
  obtain ⟨repos, pkgSrcs, ven, scans, cloneSrcs, hpk, hcl, hsrcs, hlog⟩ :=
    generate_sources_inv scan sha lock tb srcs log hrun
  have hWF0 : stWF ([] : GitRepos) :=
    ⟨List.nodup_nil, fun e he => absurd he (List.not_mem_nil e)⟩
  have hInv0 : ∀ q, logCount q ([] : List (Str × Str)) =
      if pairMem q ([] : GitRepos) then 1 else 0 := by
    intro q; simp [logCount, pairMem, pyGet]
  have hacc0 : ∀ u cm d, FlatpakSource.git u cm d ∉ ([] : List FlatpakSource) :=
    fun u cm d => List.not_mem_nil _
  obtain ⟨wWF, wLog, wGit, _, wMem⟩ :=
    genPkgLoop_master scan lock lock.package [] []
      [(VENDORED_SOURCES, [("directory".data, CARGO_CRATES)])] []
      repos pkgSrcs ven scans hpk hWF0 hInv0 hacc0
  have hmem : pairMem (geturl c1, pr1.fragment) repos = true :=
    wMem p1 hp1 s1 pr1 c1 hs1 hg1 hpr1 hc1
  refine ⟨repos, pkgSrcs, ven, cloneSrcs, hsrcs, ?_, ?_, ?_, ?_⟩
  · rw [← genRepoLoop_eq_fetchOps]
    exact hcl
  · rw [memoPairs_count repos wWF, hmem, if_pos rfl]
  · subst hlog
    rw [wLog (geturl c1, pr1.fragment), hmem, if_pos rfl]
  · intro htb
    subst htb
    rw [hsrcs, List.countP_append, List.countP_append]
    rw [genRepoLoop_count sha repos cloneSrcs hcl wWF (geturl c1) pr1.fragment,
      hmem, if_pos rfl, countP_isCloneOf_zero _ _ _ wGit]
    rfl

def c1commit : Str := "0123456789abcdef0123456789abcdef01234567".data

def c1s1 : Str :=
  "git+https://github.com/Org/Repo.git?branch=main#0123456789abcdef0123456789abcdef01234567".data

def c1s2 : Str :=
  "git+https://github.com/org/repo#0123456789abcdef0123456789abcdef01234567".data

def c1pkg : GitPackage :=
  ⟨"mycrate".data,
   [("package".data, .table [("name".data, .str "mycrate".data)])], none⟩

def c1scan : ScanOracle := fun _ _ => [("mycrate".data, c1pkg)]

def c1p1 : LockPackage := ⟨"mycrate".data, "0.1.0".data, some c1s1, none⟩

def c1p2 : LockPackage := ⟨"mycrate".data, "0.1.0".data, some c1s2, none⟩

def c1lock : CargoLock := ⟨[c1p1, c1p2], none⟩

def prOf (s : Str) : ParseResult :=
  (pyUrlparse s).toOption.getD ⟨[], [], [], [], [], []⟩

def canonOf (s : Str) : ParseResult :=
  (canonical_url s).toOption.getD ⟨[], [], [], [], [], []⟩

theorem C1_witness :
    (generate_sources c1scan (fun _ => "d".data) c1lock false).map
      (fun r => (r.1.countP (isCloneOf (geturl (canonOf c1s1)) c1commit),
        logCount (geturl (canonOf c1s1), c1commit) r.2)) = .ok (1, 1) ∧
    (generate_sources c1scan (fun _ => "d".data) c1lock true).map
      (fun r => logCount (geturl (canonOf c1s1), c1commit) r.2) = .ok 1 := by
  constructor
  · cases hrun : generate_sources c1scan (fun _ => "d".data) c1lock false with
    | error e =>
      have h2 : (generate_sources c1scan (fun _ => "d".data) c1lock false).isOk =
          true := by decide
      rw [hrun] at h2
      cases h2
    | ok r =>
      obtain ⟨srcs, log⟩ := r
      have hpr1 : pyUrlparse c1s1 = .ok (prOf c1s1) := by decide
      have hpr2 : pyUrlparse c1s2 = .ok (prOf c1s2) := by decide
      have hc1 : canonical_url c1s1 = .ok (canonOf c1s1) := by decide
      have hc2 : canonical_url c1s2 = .ok (canonOf c1s2) := by decide
      obtain ⟨repos, pkgSrcs, ven, cloneSrcs, h1, h2, h3, h4, h5⟩ :=
        C1_shared_git_source_single_fetch c1scan (fun _ => "d".data) c1lock false srcs log hrun
          c1p1 c1p2 (by decide) (by decide) c1s1 c1s2 rfl rfl
          (by decide) (by decide) (prOf c1s1) (prOf c1s2) hpr1 hpr2
          (canonOf c1s1) (canonOf c1s2) hc1 hc2 (by decide) (by decide)
      have hfr : (prOf c1s1).fragment = c1commit := by decide
      rw [hfr] at h4 h5
      show Except.ok (srcs.countP (isCloneOf (geturl (canonOf c1s1)) c1commit),
        logCount (geturl (canonOf c1s1), c1commit) log) = Except.ok (1, 1)
      rw [h5 rfl, h4]
  · cases hrun : generate_sources c1scan (fun _ => "d".data) c1lock true with
    | error e =>
      have h2 : (generate_sources c1scan (fun _ => "d".data) c1lock true).isOk =
          true := by decide
      rw [hrun] at h2
      cases h2
    | ok r =>
      obtain ⟨srcs, log⟩ := r
      have hpr1 : pyUrlparse c1s1 = .ok (prOf c1s1) := by decide
      have hpr2 : pyUrlparse c1s2 = .ok (prOf c1s2) := by decide
      have hc1 : canonical_url c1s1 = .ok (canonOf c1s1) := by decide
      have hc2 : canonical_url c1s2 = .ok (canonOf c1s2) := by decide
      obtain ⟨repos, pkgSrcs, ven, cloneSrcs, h1, h2, h3, h4, h5⟩ :=
        C1_shared_git_source_single_fetch c1scan (fun _ => "d".data) c1lock true srcs log hrun
          c1p1 c1p2 (by decide) (by decide) c1s1 c1s2 rfl rfl
          (by decide) (by decide) (prOf c1s1) (prOf c1s2) hpr1 hpr2
          (canonOf c1s1) (canonOf c1s2) hc1 hc2 (by decide) (by decide)
      have hfr : (prOf c1s1).fragment = c1commit := by decide
      rw [hfr] at h4
      show Except.ok (logCount (geturl (canonOf c1s1), c1commit) log) = Except.ok 1
      rw [h4]

/-- C9, counterexample to the spec sentence: two textually different but
canonically equal git sources produce a single fetch whose clone cache
directory is derived from the canonical URL, not two raw-URL-keyed
directories (raw-URL keying would have produced two distinct ones). -/
theorem C9_counterexample :
    (generate_sources c1scan (fun _ => "d".data) c1lock false).map
      (fun r => (r.2.map (fun q => cloneDirOf q.1)).dedup) =
      .ok [cloneDirOf (geturl (canonOf c1s1))] ∧
    c1s1 ≠ c1s2 ∧
    canonical_url c1s1 = canonical_url c1s2 ∧
    cloneDirOf c1s1 ≠ cloneDirOf c1s2 := by
  refine ⟨by decide, by decide, by decide, by decide⟩

/-- C9 (amended): the fetch step receives the canonical `geturl` form, so
for any two canonically equal git sources the run performs exactly one
fetch for the shared `(repository, commit)` pair and its on-disk clone
directory is the one derived from the canonical URL — the clone cache is
keyed by the canonical form, and no double clone occurs. -/
theorem C9_single_clone_dir_canonical
    (scan : ScanOracle) (sha : Str → Str) (lock : CargoLock)
    (srcs : List FlatpakSource) (log : List (Str × Str))
    (hrun : generate_sources scan sha lock false = .ok (srcs, log))
    (p1 p2 : LockPackage) (hp1 : p1 ∈ lock.package) (hp2 : p2 ∈ lock.package)
    (s1 s2 : Str) (hs1 : p1.source = some s1) (hs2 : p2.source = some s2)
    (hg1 : "git+".data.isPrefixOf s1 = true)
    (hg2 : "git+".data.isPrefixOf s2 = true)
    (pr1 pr2 : ParseResult) (hpr1 : pyUrlparse s1 = .ok pr1)
    (hpr2 : pyUrlparse s2 = .ok pr2)
    (c1 c2 : ParseResult) (hc1 : canonical_url s1 = .ok c1)
    (hc2 : canonical_url s2 = .ok c2)
    (hurl : geturl c1 = geturl c2) (hfrag : pr1.fragment = pr2.fragment) :
    (log.filter (fun q => q == (geturl c1, pr1.fragment))).map
      (fun q => cloneDirOf q.1) = [cloneDirOf (geturl c1)] := by
  obtain ⟨repos, pkgSrcs, ven, scans, cloneSrcs, hpk, hcl, hsrcs, hlog⟩ :=
    generate_sources_inv scan sha lock false srcs log hrun
  have hWF0 : stWF ([] : GitRepos) :=
    ⟨List.nodup_nil, fun e he => absurd he (List.not_mem_nil e)⟩
  have hInv0 : ∀ q, logCount q ([] : List (Str × Str)) =
      if pairMem q ([] : GitRepos) then 1 else 0 := by
    intro q; simp [logCount, pairMem, pyGet]
  have hacc0 : ∀ u cm d, FlatpakSource.git u cm d ∉ ([] : List FlatpakSource) :=
    fun u cm d => List.not_mem_nil _
  obtain ⟨wWF, wLog, wGit, _, wMem⟩ :=
    genPkgLoop_master scan lock lock.package [] []
      [(VENDORED_SOURCES, [("directory".data, CARGO_CRATES)])] []
      repos pkgSrcs ven scans hpk hWF0 hInv0 hacc0
  have hmem : pairMem (geturl c1, pr1.fragment) repos = true :=
    wMem p1 hp1 s1 pr1 c1 hs1 hg1 hpr1 hc1
  have hcount : logCount (geturl c1, pr1.fragment) log = 1 := by
    subst hlog
    rw [wLog (geturl c1, pr1.fragment), hmem, if_pos rfl]
  have hlen : (log.filter (fun q => q == (geturl c1, pr1.fragment))).length = 1 := by
    rw [← List.countP_eq_length_filter]
    exact hcount
  obtain ⟨a, ha⟩ := List.length_eq_one.mp hlen
  have hamem : a ∈ log.filter (fun q => q == (geturl c1, pr1.fragment)) := by
    rw [ha]; exact List.mem_singleton_self a
  have haeq : a = (geturl c1, pr1.fragment) :=
    eq_of_beq (List.mem_filter.mp hamem).2
  rw [ha, haeq]
  rfl

theorem C9_witness :
    (generate_sources c1scan (fun _ => "d".data) c1lock false).map
      (fun r => (r.2.filter (fun q => q == (geturl (canonOf c1s1), c1commit))).map
        (fun q => cloneDirOf q.1)) = .ok [cloneDirOf (geturl (canonOf c1s1))] := by
  cases hrun : generate_sources c1scan (fun _ => "d".data) c1lock false with
  | error e =>
    have h2 : (generate_sources c1scan (fun _ => "d".data) c1lock false).isOk = true := by
      decide
    rw [hrun] at h2
    cases h2
  | ok r =>
    obtain ⟨srcs, log⟩ := r
    have hpr1 : pyUrlparse c1s1 = .ok (prOf c1s1) := by decide
    have hpr2 : pyUrlparse c1s2 = .ok (prOf c1s2) := by decide
    have hc1 : canonical_url c1s1 = .ok (canonOf c1s1) := by decide
    have hc2 : canonical_url c1s2 = .ok (canonOf c1s2) := by decide
    have h := C9_single_clone_dir_canonical c1scan (fun _ => "d".data) c1lock
      srcs log hrun c1p1 c1p2 (by decide) (by decide) c1s1 c1s2 rfl rfl
      (by decide) (by decide) (prOf c1s1) (prOf c1s2) hpr1 hpr2
      (canonOf c1s1) (canonOf c1s2) hc1 hc2 (by decide) (by decide)
    have hfr : (prOf c1s1).fragment = c1commit := by decide
    rw [hfr] at h
    show Except.ok ((log.filter (fun q => q == (geturl (canonOf c1s1), c1commit))).map
      (fun q => cloneDirOf q.1)) = Except.ok [cloneDirOf (geturl (canonOf c1s1))]
    rw [h]

/-! ### Claims C4 and C5: algebra of `canonical_url` -/

theorem charToNat_ofNat (n : Nat) (h : n < 55296) : (Char.ofNat n).toNat = n := by
  unfold Char.ofNat
  rw [dif_pos (Or.inl h)]
  rfl

theorem charLe_toNat {a b : Char} (h : a ≤ b) : a.toNat ≤ b.toNat := h

theorem charToNat_le_iff {a b : Char} : a ≤ b ↔ a.toNat ≤ b.toNat := Iff.rfl

theorem asciiLower_idem (c : Char) : asciiLower (asciiLower c) = asciiLower c := by
  by_cases h : 'A' ≤ c ∧ c ≤ 'Z'
  · have hstep : asciiLower c = Char.ofNat (c.toNat + 32) := by
      rw [asciiLower, if_pos h]
    have h1 : 65 ≤ c.toNat := charLe_toNat h.1
    have h2 : c.toNat ≤ 90 := charLe_toNat h.2
    have hv : (Char.ofNat (c.toNat + 32)).toNat = c.toNat + 32 :=
      charToNat_ofNat _ (by omega)
    rw [hstep, asciiLower, if_neg]
    intro hcontra
    have := charLe_toNat hcontra.2
    rw [hv] at this
    have hz : ('Z').toNat = 90 := by decide
    rw [hz] at this
    omega
  · have hfix : asciiLower c = c := by rw [asciiLower, if_neg h]
    rw [hfix]
    exact hfix

theorem asciiLower_beq_slash (c : Char) : (asciiLower c == '/') = (c == '/') := by
  by_cases h : 'A' ≤ c ∧ c ≤ 'Z'
  · have h1 : 65 ≤ c.toNat := charLe_toNat h.1
    have h2 : c.toNat ≤ 90 := charLe_toNat h.2
    have hv : (Char.ofNat (c.toNat + 32)).toNat = c.toNat + 32 :=
      charToNat_ofNat _ (by omega)
    rw [asciiLower, if_pos h]
    have hL : (Char.ofNat (c.toNat + 32) == '/') = false := by
      rw [beq_eq_false_iff_ne]
      intro he
      have := congrArg Char.toNat he
      rw [hv] at this
      have hs : ('/').toNat = 47 := by decide
      rw [hs] at this
      omega
    have hR : (c == '/') = false := by
      rw [beq_eq_false_iff_ne]
      intro he
      have := congrArg Char.toNat he
      have hs : ('/').toNat = 47 := by decide
      rw [hs] at this
      omega
    rw [hL, hR]
  · rw [asciiLower, if_neg h]

theorem lowerStr_idem (l : Str) : lowerStr (lowerStr l) = lowerStr l := by
  simp only [lowerStr, List.map_map]
  exact List.map_congr_left (fun c _ => asciiLower_idem c)

theorem lowerStr_take (l : Str) (n : Nat) :
    lowerStr (l.take n) = (lowerStr l).take n := by
  rw [lowerStr, lowerStr, List.map_take]

theorem lowerStr_append (l₁ l₂ : Str) :
    lowerStr (l₁ ++ l₂) = lowerStr l₁ ++ lowerStr l₂ := by
  rw [lowerStr, lowerStr, lowerStr, List.map_append]

theorem lowerStr_length (l : Str) : (lowerStr l).length = l.length := by
  rw [lowerStr, List.length_map]

theorem lowerStr_rstripSlash (l : Str) :
    lowerStr (rstripSlash l) = rstripSlash (lowerStr l) := by
  simp only [rstripSlash, lowerStr]
  rw [← List.map_reverse, List.dropWhile_map]
  have hfun : ((fun x : Char => x == '/') ∘ asciiLower) = (fun x : Char => x == '/') :=
    funext (fun c => asciiLower_beq_slash c)
  rw [hfun, List.map_reverse]

theorem rstripSlash_append_slash (p : Str) :
    rstripSlash (p ++ ['/']) = rstripSlash p := by
  rw [rstripSlash, rstripSlash]
  congr 1
  rw [List.reverse_append]
  rfl

theorem rstripSlash_of_getLast (p : Str) (h : p.getLast? ≠ some '/') :
    rstripSlash p = p := by
  rw [rstripSlash]
  cases hp : p.reverse with
  | nil =>
    have : p = [] := by
      have := congrArg List.reverse hp
      simpa using this
    simp [this]
  | cons a t =>
    have ha : a ≠ '/' := by
      intro he
      subst he
      apply h
      rw [← List.head?_reverse, hp]
      rfl
    rw [List.dropWhile_cons, if_neg (by simp [ha])]
    rw [← hp, List.reverse_reverse]

theorem replaceF_cons_ne (pat rep : Str) (f : Nat) (c : Char) (cs : Str)
    (h : pat.isPrefixOf (c :: cs) = false) :
    replaceF pat rep (f + 1) (c :: cs) = c :: replaceF pat rep f cs := by
  rw [replaceF, if_neg]
  intro hc
  rw [h] at hc
  exact Bool.noConfusion hc.2

theorem replaceF_irrel (pat rep : Str) :
    ∀ (f : Nat) (f' : Nat) (l : Str), l.length ≤ f → l.length ≤ f' →
    replaceF pat rep f l = replaceF pat rep f' l := by
  intro f
  induction f with
  | zero =>
    intro f' l hf _
    have : l = [] := List.eq_nil_of_length_eq_zero (Nat.le_zero.mp hf)
    subst this
    cases f' <;> rfl
  | succ f ih =>
    intro f' l hf hf'
    cases l with
    | nil => cases f' <;> rfl
    | cons c cs =>
      cases f' with
      | zero => simp at hf'
      | succ f'' =>
        rw [replaceF, replaceF]
        by_cases hm : pat ≠ [] ∧ pat.isPrefixOf (c :: cs)
        · rw [if_pos hm, if_pos hm]
          have hp1 : 1 ≤ pat.length := by
            cases pat with
            | nil => exact absurd rfl hm.1
            | cons a as => simp
          have hlen : ((c :: cs).drop pat.length).length ≤ f := by
            simp only [List.length_drop, List.length_cons]
            simp only [List.length_cons] at hf
            omega
          have hlen' : ((c :: cs).drop pat.length).length ≤ f'' := by
            simp only [List.length_drop, List.length_cons]
            simp only [List.length_cons] at hf'
            omega
          rw [ih f'' _ hlen hlen']
        · rw [if_neg hm, if_neg hm]
          simp only [List.length_cons] at hf hf'
          rw [ih f'' cs (by omega) (by omega)]

theorem replaceF_https_head (f : Nat) (t : Str) :
    replaceF "git+https://".data "https://".data (f + 8) ("https://".data ++ t) =
    "https://".data ++ replaceF "git+https://".data "https://".data f t := by
  show replaceF "git+https://".data "https://".data (f + 8)
      ('h' :: 't' :: 't' :: 'p' :: 's' :: ':' :: '/' :: '/' :: t) =
    'h' :: 't' :: 't' :: 'p' :: 's' :: ':' :: '/' :: '/' ::
      replaceF "git+https://".data "https://".data f t
  rw [show f + 8 = (f + 7) + 1 by omega]
  rw [replaceF_cons_ne "git+https://".data "https://".data (f + 7) 'h'
    ('t' :: 't' :: 'p' :: 's' :: ':' :: '/' :: '/' :: t) rfl]
  rw [show f + 7 = (f + 6) + 1 by omega]
  rw [replaceF_cons_ne "git+https://".data "https://".data (f + 6) 't'
    ('t' :: 'p' :: 's' :: ':' :: '/' :: '/' :: t) rfl]
  rw [show f + 6 = (f + 5) + 1 by omega]
  rw [replaceF_cons_ne "git+https://".data "https://".data (f + 5) 't'
    ('p' :: 's' :: ':' :: '/' :: '/' :: t) rfl]
  rw [show f + 5 = (f + 4) + 1 by omega]
  rw [replaceF_cons_ne "git+https://".data "https://".data (f + 4) 'p'
    ('s' :: ':' :: '/' :: '/' :: t) rfl]
  rw [show f + 4 = (f + 3) + 1 by omega]
  rw [replaceF_cons_ne "git+https://".data "https://".data (f + 3) 's'
    (':' :: '/' :: '/' :: t) rfl]
  rw [show f + 3 = (f + 2) + 1 by omega]
  rw [replaceF_cons_ne "git+https://".data "https://".data (f + 2) ':'
    ('/' :: '/' :: t) rfl]
  rw [show f + 2 = (f + 1) + 1 by omega]
  rw [replaceF_cons_ne "git+https://".data "https://".data (f + 1) '/'
    ('/' :: t) rfl]
  rw [show f + 1 = f + 1 by rfl]
  rw [replaceF_cons_ne "git+https://".data "https://".data f '/'
    (t) rfl]

theorem replaceF_match_head (pat rep : Str) (f : Nat) (c : Char) (cs : Str)
    (hne : pat ≠ []) (h : pat.isPrefixOf (c :: cs) = true) :
    replaceF pat rep (f + 1) (c :: cs) =
    rep ++ replaceF pat rep f ((c :: cs).drop pat.length) := by
  rw [replaceF, if_pos ⟨hne, h⟩]

theorem pyReplace_gitplus (u : Str) (h : "https://".data.isPrefixOf u = true) :
    pyReplace "git+https://".data "https://".data ("git+".data ++ u) =
    pyReplace "git+https://".data "https://".data u := by
  obtain ⟨t, ht⟩ := List.isPrefixOf_iff_prefix.mp h
  subst ht
  rw [pyReplace, pyReplace]
  have hlen1 : ("git+".data ++ ("https://".data ++ t)).length = t.length + 12 := by
    simp
  have hlen2 : ("https://".data ++ t).length = t.length + 8 := by
    simp
  rw [hlen1, hlen2]
  rw [show t.length + 12 = (t.length + 11) + 1 by omega]
  have hm : replaceF "git+https://".data "https://".data ((t.length + 11) + 1)
      ('g' :: 'i' :: 't' :: '+' :: 'h' :: 't' :: 't' :: 'p' :: 's' :: ':' :: '/' :: '/' :: t) =
      "https://".data ++ replaceF "git+https://".data "https://".data (t.length + 11)
        (('g' :: 'i' :: 't' :: '+' :: 'h' :: 't' :: 't' :: 'p' :: 's' :: ':' :: '/' :: '/' :: t).drop
          "git+https://".data.length) :=
    replaceF_match_head "git+https://".data "https://".data (t.length + 11) 'g'
      ('i' :: 't' :: '+' :: 'h' :: 't' :: 't' :: 'p' :: 's' :: ':' :: '/' :: '/' :: t) (by decide)
      (by simp [List.isPrefixOf])
  have hdrop : (('g' :: 'i' :: 't' :: '+' :: 'h' :: 't' :: 't' :: 'p' :: 's' :: ':' :: '/' :: '/' :: t)).drop
      "git+https://".data.length = t := rfl
  rw [hdrop] at hm
  show replaceF "git+https://".data "https://".data ((t.length + 11) + 1)
      ('g' :: 'i' :: 't' :: '+' :: 'h' :: 't' :: 't' :: 'p' :: 's' :: ':' :: '/' :: '/' :: t) = _
  rw [hm]
  rw [replaceF_https_head t.length t]
  rw [replaceF_irrel "git+https://".data "https://".data (t.length + 11) t.length t
    (by omega) (by omega)]

def canonPost (u : ParseResult) : ParseResult :=
  let p := rstripSlash u.path
  let (s, p) :=
    if u.netloc = "github.com".data then
      ("https".data, lowerStr p)
    else
      (u.scheme, p)
  let p := if ".git".data.isSuffixOf p then p.take (p.length - 4) else p
  ⟨s, u.netloc, p, [], [], []⟩

theorem canonical_url_ok (u : Str) (pr : ParseResult)
    (hp : pyUrlparse (pyReplace "git+https://".data "https://".data u) = .ok pr) :
    canonical_url u = .ok (canonPost pr) := by
  rw [canonical_url, canonPost]
  simp only []
  rw [hp, exceptBind_ok]
  rfl

theorem canonPost_slash (pr2 pr1 : ParseResult) (hsc : pr2.scheme = pr1.scheme)
    (hnl : pr2.netloc = pr1.netloc) (hpa : pr2.path = pr1.path ++ "/".data) :
    canonPost pr2 = canonPost pr1 := by
  rw [canonPost, canonPost]
  simp only [hsc, hnl, hpa, rstripSlash_append_slash]

theorem canonPost_github (pr2 pr1 : ParseResult)
    (h1 : pr1.netloc = "github.com".data) (h2 : pr2.netloc = "github.com".data)
    (hlow : lowerStr pr2.path = lowerStr pr1.path) :
    canonPost pr2 = canonPost pr1 := by
  have hpp : lowerStr (rstripSlash pr2.path) = lowerStr (rstripSlash pr1.path) := by
    rw [lowerStr_rstripSlash, lowerStr_rstripSlash, hlow]
  rw [canonPost, canonPost]
  simp only [h1, h2, hpp, if_true]

theorem canonPost_git (pr2 pr1 : ParseResult) (hsc : pr2.scheme = pr1.scheme)
    (hnl : pr2.netloc = pr1.netloc) (hpa : pr2.path = pr1.path ++ ".git".data)
    (hns : pr1.path.getLast? ≠ some '/')
    (hng1 : ".git".data.isSuffixOf pr1.path = false)
    (hng2 : ".git".data.isSuffixOf (lowerStr pr1.path) = false) :
    canonPost pr2 = canonPost pr1 := by
  have hlast : (pr1.path ++ ['.', 'g', 'i', 't']).getLast? = some 't' := by
    rw [List.getLast?_append_of_ne_nil pr1.path (by decide)]
    decide
  have hr2 : rstripSlash (pr1.path ++ ['.', 'g', 'i', 't']) = pr1.path ++ ['.', 'g', 'i', 't'] :=
    rstripSlash_of_getLast _ (by rw [hlast]; decide)
  have hr1 : rstripSlash pr1.path = pr1.path := rstripSlash_of_getLast _ hns
  have hsfx : List.isSuffixOf ['.', 'g', 'i', 't'] (pr1.path ++ ['.', 'g', 'i', 't']) = true :=
    List.isSuffixOf_iff_suffix.mpr (List.suffix_append _ _)
  have htake : (pr1.path ++ ['.', 'g', 'i', 't']).take
      ((pr1.path ++ ['.', 'g', 'i', 't']).length - 4) = pr1.path := by
    have hl : (pr1.path ++ ['.', 'g', 'i', 't']).length - 4 = pr1.path.length := by simp
    rw [hl, List.take_left]
  have hlapp : lowerStr (pr1.path ++ ['.', 'g', 'i', 't']) =
      lowerStr pr1.path ++ ['.', 'g', 'i', 't'] := by
    rw [lowerStr_append]
    congr 1
  have hsfxl : List.isSuffixOf ['.', 'g', 'i', 't'] (lowerStr pr1.path ++ ['.', 'g', 'i', 't']) = true :=
    List.isSuffixOf_iff_suffix.mpr (List.suffix_append _ _)
  have htakel : (lowerStr pr1.path ++ ['.', 'g', 'i', 't']).take
      ((lowerStr pr1.path ++ ['.', 'g', 'i', 't']).length - 4) = lowerStr pr1.path := by
    have hl : (lowerStr pr1.path ++ ['.', 'g', 'i', 't']).length - 4 =
        (lowerStr pr1.path).length := by
      simp
    rw [hl, List.take_left]
  have hng1' : List.isSuffixOf ['.', 'g', 'i', 't'] pr1.path = false := hng1
  have hng2' : List.isSuffixOf ['.', 'g', 'i', 't'] (lowerStr pr1.path) = false := hng2
  rw [canonPost, canonPost]
  simp only [hsc, hnl, hpa, hr2, hr1]
  by_cases hg : pr1.netloc = "github.com".data
  · simp [if_pos hg, hlapp, hsfxl, htakel, hng2']
  · simp [if_neg hg, hsfx, htake, hng1']

def prRep (s : Str) : ParseResult :=
  (pyUrlparse (pyReplace "git+https://".data "https://".data s)).toOption.getD
    ⟨[], [], [], [], [], []⟩

/-- C5 (amended): a `git+` prefix on an `https://` URL never changes the
canonical form; and at the parsed level a trailing path slash never does,
a trailing `.git` path suffix does not when the bare path ends in neither
`/` nor `.git` (in lowered form for github), and two `github.com` URLs
whose paths agree up to ASCII case canonicalize identically. -/
theorem C5_canonicalization_invariances :
    (∀ u, "https://".data.isPrefixOf u = true →
      canonical_url ("git+".data ++ u) = canonical_url u) ∧
    (∀ u1 u2 pr1 pr2,
      pyUrlparse (pyReplace "git+https://".data "https://".data u1) = .ok pr1 →
      pyUrlparse (pyReplace "git+https://".data "https://".data u2) = .ok pr2 →
      pr2.scheme = pr1.scheme → pr2.netloc = pr1.netloc →
      pr2.path = pr1.path ++ "/".data →
      canonical_url u2 = canonical_url u1) ∧
    (∀ u1 u2 pr1 pr2,
      pyUrlparse (pyReplace "git+https://".data "https://".data u1) = .ok pr1 →
      pyUrlparse (pyReplace "git+https://".data "https://".data u2) = .ok pr2 →
      pr2.scheme = pr1.scheme → pr2.netloc = pr1.netloc →
      pr2.path = pr1.path ++ ".git".data →
      pr1.path.getLast? ≠ some '/' →
      ".git".data.isSuffixOf pr1.path = false →
      ".git".data.isSuffixOf (lowerStr pr1.path) = false →
      canonical_url u2 = canonical_url u1) ∧
    (∀ u1 u2 pr1 pr2,
      pyUrlparse (pyReplace "git+https://".data "https://".data u1) = .ok pr1 →
      pyUrlparse (pyReplace "git+https://".data "https://".data u2) = .ok pr2 →
      pr1.netloc = "github.com".data → pr2.netloc = "github.com".data →
      lowerStr pr2.path = lowerStr pr1.path →
      canonical_url u2 = canonical_url u1) := by
  refine ⟨?_, ?_, ?_, ?_⟩
  · intro u h
    rw [canonical_url, canonical_url]
    simp only []
    rw [pyReplace_gitplus u h]
  · intro u1 u2 pr1 pr2 hp1 hp2 hsc hnl hpa
    rw [canonical_url_ok u2 pr2 hp2, canonical_url_ok u1 pr1 hp1,
      canonPost_slash pr2 pr1 hsc hnl hpa]
  · intro u1 u2 pr1 pr2 hp1 hp2 hsc hnl hpa hns hng1 hng2
    rw [canonical_url_ok u2 pr2 hp2, canonical_url_ok u1 pr1 hp1,
      canonPost_git pr2 pr1 hsc hnl hpa hns hng1 hng2]
  · intro u1 u2 pr1 pr2 hp1 hp2 h1 h2 hlow
    rw [canonical_url_ok u2 pr2 hp2, canonical_url_ok u1 pr1 hp1,
      canonPost_github pr2 pr1 h1 h2 hlow]

/-- C5, counterexample to the spec sentence: removing a trailing `.git`
changes the canonical form (`/a/.git` vs `/a/`), and appending a trailing
slash changes it when the last path segment carries a `;` parameter part
(`/x;y` vs `/x;y/`). -/
theorem C5_counterexample :
    canonical_url "https://example.com/a/.git".data ≠
      canonical_url "https://example.com/a/".data ∧
    canonical_url "https://example.com/x;y".data ≠
      canonical_url "https://example.com/x;y/".data := by
  refine ⟨by decide, by decide⟩

theorem C5_witness :
    canonical_url ("git+".data ++ "https://github.com/a/b".data) =
      canonical_url "https://github.com/a/b".data ∧
    canonical_url "https://example.com/p/".data =
      canonical_url "https://example.com/p".data ∧
    canonical_url "https://example.com/p.git".data =
      canonical_url "https://example.com/p".data ∧
    canonical_url "https://github.com/Own/Repo".data =
      canonical_url "https://github.com/own/repo".data := by
  obtain ⟨h1, h2, h3, h4⟩ := C5_canonicalization_invariances
  refine ⟨h1 "https://github.com/a/b".data (by decide), ?_, ?_, ?_⟩
  · exact h2 "https://example.com/p".data "https://example.com/p/".data
      (prRep "https://example.com/p".data) (prRep "https://example.com/p/".data)
      (by decide) (by decide) (by decide) (by decide) (by decide)
  · exact h3 "https://example.com/p".data "https://example.com/p.git".data
      (prRep "https://example.com/p".data) (prRep "https://example.com/p.git".data)
      (by decide) (by decide) (by decide) (by decide) (by decide) (by decide)
      (by decide) (by decide)
  · exact h4 "https://github.com/own/repo".data "https://github.com/Own/Repo".data
      (prRep "https://github.com/own/repo".data) (prRep "https://github.com/Own/Repo".data)
      (by decide) (by decide) (by decide) (by decide) (by decide)

theorem canonPost_shape (pr : ParseResult) :
    (canonPost pr).params = [] ∧ (canonPost pr).query = [] ∧
    (canonPost pr).fragment = [] ∧
    ((canonPost pr).netloc = "github.com".data →
      (canonPost pr).scheme = "https".data ∧
      lowerStr (canonPost pr).path = (canonPost pr).path) := by
  by_cases hg : pr.netloc = "github.com".data
  · rw [canonPost]
    simp only [hg, if_true]
    refine ⟨trivial, trivial, trivial, fun _ => ⟨trivial, ?_⟩⟩
    by_cases hs : ".git".data.isSuffixOf (lowerStr (rstripSlash pr.path)) = true
    · rw [if_pos hs, lowerStr_take, lowerStr_idem]
    · rw [if_neg hs, lowerStr_idem]
  · rw [canonPost]
    simp only [if_neg hg]
    exact ⟨trivial, trivial, trivial, fun h => absurd h hg⟩

/-- C4 (amended): canonicalization is idempotent on every canonical form
whose serialization re-parses to its own components, contains no embedded
`git+https://` occurrence, and whose path ends neither in `/` nor in
`.git` (the counterexample shows the trailing-slash/`.git` residue is the
precise failure mode). -/
theorem C4_canonical_idempotent_conditional (u : Str) (c pr : ParseResult)
    (hc : canonical_url u = .ok c)
    (hrep : pyReplace "git+https://".data "https://".data (geturl c) = geturl c)
    (hrt : pyUrlparse (geturl c) = .ok pr)
    (hsc : pr.scheme = c.scheme) (hnl : pr.netloc = c.netloc)
    (hpa : pr.path = c.path)
    (hns : c.path.getLast? ≠ some '/')
    (hng : ".git".data.isSuffixOf c.path = false) :
    canonical_url (geturl c) = .ok c := by
  cases hp0 : pyUrlparse (pyReplace "git+https://".data "https://".data u) with
  | error e =>
    rw [canonical_url] at hc
    simp only [] at hc
    rw [hp0, exceptBind_error] at hc
    cases hc
  | ok pr0 =>
    have hcc : canonical_url u = .ok (canonPost pr0) := canonical_url_ok u pr0 hp0
    rw [hcc] at hc
    injection hc with hc1
    obtain ⟨hP, hQ, hF, hG⟩ := canonPost_shape pr0
    rw [hc1] at hP hQ hF hG
    have hEta : c = ⟨c.scheme, c.netloc, c.path, [], [], []⟩ := by
      obtain ⟨s0, n0, p0, a0, q0, f0⟩ := c
      simp only [] at hP hQ hF
      subst hP hQ hF
      rfl
    have hp : pyUrlparse (pyReplace "git+https://".data "https://".data (geturl c)) =
        .ok pr := by
      rw [hrep]
      exact hrt
    rw [canonical_url_ok (geturl c) pr hp]
    have hrs : rstripSlash c.path = c.path := rstripSlash_of_getLast _ hns
    have hnsuf : ¬(".git".data.isSuffixOf c.path = true) := by
      rw [hng]
      exact Bool.false_ne_true
    congr 1
    rw [canonPost]
    simp only [hsc, hnl, hpa, hrs]
    by_cases hg : c.netloc = "github.com".data
    · obtain ⟨hS, hL⟩ := hG hg
      simp only [hg, if_true, hL]
      rw [if_neg hnsuf]
      conv_rhs => rw [hEta]
      rw [hS, hg]
    · simp only [if_neg hg]
      rw [if_neg hnsuf]
      conv_rhs => rw [hEta]

/-- C4, counterexample to the spec sentence: canonicalization is not
idempotent — `https://example.com/a/.git` canonicalizes to path `/a/`,
whose serialized form re-canonicalizes to path `/a`. -/
theorem C4_counterexample :
    Except.bind (canonical_url "https://example.com/a/.git".data)
      (fun c => canonical_url (geturl c)) ≠
      canonical_url "https://example.com/a/.git".data ∧
    (canonical_url "https://example.com/a/.git".data).isOk = true := by
  refine ⟨by decide, by decide⟩

theorem C4_witness :
    canonical_url (geturl (canonOf "https://github.com/Org/Repo.git".data)) =
      .ok (canonOf "https://github.com/Org/Repo.git".data) :=
  C4_canonical_idempotent_conditional "https://github.com/Org/Repo.git".data
    (canonOf "https://github.com/Org/Repo.git".data)
    (prOf (geturl (canonOf "https://github.com/Org/Repo.git".data)))
    (by decide) (by decide) (by decide) (by decide) (by decide) (by decide)
    (by decide) (by decide)


end FlatpakCargo
